import Mathlib

/-!
Verification development for tools/charm_helpers_sync/charm_helpers_sync.py.

The tool is a sequence of filesystem and subprocess operations.  We model the
filesystem shallowly: a path is its list of components (the tool builds paths
with os.path.join over relative component strings, so a path string
"a/b/c" is modelled as ["a", "b", "c"]), and a filesystem is a finite set of
directory paths plus a finite set of file paths.  File contents are not
tracked: every claim in scope is about which paths exist, about command lines,
or about option parsing.  Fallible operations return an Except result paired
with the filesystem state at the point of return, so that exception paths
(including the try/finally of the entry point) keep their state explicit.
-/

namespace CH

/-- A filesystem path, as its list of components (relative, separator "/"). -/
abbrev FPath := List String

/-- The package-marker file name used throughout charm_helpers_sync.py. -/
def initPy : String := "__init__.py"

/-- Render a component path the way os.path.join renders it. -/
def pathStr (p : FPath) : String := String.intercalate "/" p

/-- Python s.split(sep) for a one-character separator, on char lists. -/
def chSplit (sep : Char) : List Char → List (List Char)
  | [] => [[]]
  | c :: cs =>
    let r := chSplit sep cs
    if c = sep then [] :: r
    else
      match r with
      | [] => [[c]]
      | h :: t => (c :: h) :: t

/-- Python str.split(sep) for a one-character separator. -/
def pySplit (sep : Char) (s : String) : List String :=
  (chSplit sep s.data).map String.mk

/-- Helper for Python str.split(sep, 1): find the first occurrence of sep,
returning the parts before and after it, or none if sep does not occur. -/
def splitFirstAux (sep : Char) : List Char → Option (List Char × List Char)
  | [] => none
  | c :: cs =>
    if c = sep then some ([], cs)
    else
      match splitFirstAux sep cs with
      | none => none
      | some (b, a) => some (c :: b, a)

/-- Python s.split(sep, 1) together with the membership test sep in s:
returns (s, none) when sep does not occur, else the parts around the first
occurrence. -/
def pySplit1 (sep : Char) (s : String) : String × Option String :=
  match splitFirstAux sep s.data with
  | none => (s, none)
  | some (b, a) => (⟨b⟩, some ⟨a⟩)

/-- Does the char list start with the given needle. -/
def startsWithCh : List Char → List Char → Bool
  | [], _ => true
  | _ :: _, [] => false
  | n :: ns, h :: hs => n == h && startsWithCh ns hs

/-- Python substring containment (needle in haystack) on char lists. -/
def hasSub (n : List Char) : List Char → Bool
  | [] => startsWithCh n []
  | h :: hs => startsWithCh n (h :: hs) || hasSub n hs

/-- Python substring containment needle in haystack. -/
def pyContains (hay needle : String) : Bool := hasSub needle.data hay.data

/-- Python s.endswith(suffix). -/
def pyEndsWith (s suffix : String) : Bool :=
  s.data.reverse.take suffix.data.length == suffix.data.reverse

/-- Lexicographic comparison of char lists (a reducible stand-in for the
library string order, used only to fix a listing order). -/
def chLe : List Char → List Char → Bool
  | [], _ => true
  | _ :: _, [] => false
  | a :: as, b :: bs => if a = b then chLe as bs else decide (a < b)

/-- Lexicographic order on strings. -/
def nameOrd (a b : String) : Prop := chLe a.data b.data = true

instance : DecidableRel nameOrd := fun a b =>
  inferInstanceAs (Decidable (chLe a.data b.data = true))

theorem chLe_total : ∀ a b : List Char, chLe a b = true ∨ chLe b a = true
  | [], _ => Or.inl rfl
  | _ :: _, [] => Or.inr rfl
  | a :: as, b :: bs => by
    by_cases hab : a = b
    · subst hab
      simpa [chLe] using chLe_total as bs
    · rcases lt_or_gt_of_ne hab with h | h
      · exact Or.inl (by simp [chLe, hab, h])
      · exact Or.inr (by simp [chLe, Ne.symm hab, h])

theorem chLe_antisymm : ∀ a b : List Char, chLe a b = true → chLe b a = true → a = b
  | [], [], _, _ => rfl
  | [], _ :: _, _, h => by simp [chLe] at h
  | _ :: _, [], h, _ => by simp [chLe] at h
  | a :: as, b :: bs, h1, h2 => by
    by_cases hab : a = b
    · subst hab
      simp only [chLe, if_pos rfl] at h1 h2
      exact congrArg (a :: ·) (chLe_antisymm as bs h1 h2)
    · simp only [chLe, if_neg hab, if_neg (Ne.symm hab), decide_eq_true_eq] at h1 h2
      exact absurd h2 (not_lt_of_gt h1)

theorem chLe_trans : ∀ a b c : List Char,
    chLe a b = true → chLe b c = true → chLe a c = true
  | [], _, _, _, _ => rfl
  | _ :: _, [], _, h, _ => by simp [chLe] at h
  | _ :: _, _ :: _, [], _, h => by simp [chLe] at h
  | a :: as, b :: bs, c :: cs, h1, h2 => by
    by_cases hab : a = b <;> by_cases hbc : b = c
    · subst hab; subst hbc
      simp only [chLe, if_pos rfl] at h1 h2 ⊢
      exact chLe_trans as bs cs h1 h2
    · subst hab
      simpa [chLe, hbc] using h2
    · subst hbc
      simpa [chLe, hab] using h1
    · simp only [chLe, if_neg hab, if_neg hbc, decide_eq_true_eq] at h1 h2
      have hac : a < c := lt_trans h1 h2
      simp [chLe, ne_of_lt hac, hac]

instance : IsTrans String nameOrd :=
  ⟨fun a b c h1 h2 => chLe_trans a.data b.data c.data h1 h2⟩

instance : IsAntisymm String nameOrd :=
  ⟨fun a b h1 h2 => by
    cases a; cases b
    exact congrArg String.mk (chLe_antisymm _ _ h1 h2)⟩

instance : IsTotal String nameOrd := ⟨fun a b => chLe_total a.data b.data⟩

/-- A canonical sorted listing of a finite set of names (insertion sort, so
that it evaluates by kernel reduction). -/
def sortNames (s : Finset String) : List String :=
  Quot.liftOn s.val (fun l => l.insertionSort nameOrd) (fun l1 l2 h =>
    List.eq_of_perm_of_sorted
      ((List.perm_insertionSort nameOrd l1).trans
        (Quotient.exact (Quotient.sound h) |>.trans
          (List.perm_insertionSort nameOrd l2).symm))
      (List.sorted_insertionSort nameOrd l1)
      (List.sorted_insertionSort nameOrd l2))

/-! ### fnmatch

Python's fnmatch.fnmatch translates the pattern to a regex: "*" matches any
(possibly empty) sequence of characters, "?" any single character, and
"[...]" a character class with optional "!" negation and "-" ranges; on POSIX
os.path.normcase is the identity, so matching is case-literal.  We model the
pattern as a token list and match with an explicit fuel argument (one unit of
fuel per step; pattern length plus name length plus one is always enough), so
that the function is structurally recursive and evaluates by kernel
reduction. -/

/-- One token of a shell glob pattern. -/
inductive GTok where
  | star : GTok
  | any : GTok
  | lit : Char → GTok
  | cls : Bool → List (Char × Char) → GTok
deriving DecidableEq, Repr

/-- Scan a character class body: collect chars until an unescaped "]",
where a "]" in first position is a literal member.  Returns the members and
the rest of the pattern, or none when the class is unterminated. -/
def scanCls (acc : List Char) : List Char → Option (List Char × List Char)
  | [] => none
  | c :: rest =>
    if c = ']' ∧ acc ≠ [] then some (acc.reverse, rest)
    else scanCls (c :: acc) rest

/-- Parse class members into ranges: "a-b" is a range, any other char is a
singleton range. -/
def parseRanges : List Char → List (Char × Char)
  | a :: '-' :: b :: rest => (a, b) :: parseRanges rest
  | a :: rest => (a, a) :: parseRanges rest
  | [] => []

/-- Tokenize a glob pattern; fuel-driven so that it evaluates by reduction
(each step consumes at least one pattern character, so fuel = length is
enough). An unterminated "[" is a literal. -/
def gtokenizeF : Nat → List Char → List GTok
  | 0, _ => []
  | _ + 1, [] => []
  | fuel + 1, '*' :: rest => .star :: gtokenizeF fuel rest
  | fuel + 1, '?' :: rest => .any :: gtokenizeF fuel rest
  | fuel + 1, '[' :: rest =>
    let (neg, body) :=
      match rest with
      | '!' :: r => (true, r)
      | _ => (false, rest)
    (match scanCls [] body with
     | none => .lit '[' :: gtokenizeF fuel rest
     | some (content, after) => .cls neg (parseRanges content) :: gtokenizeF fuel after)
  | fuel + 1, c :: rest => .lit c :: gtokenizeF fuel rest

/-- Tokenize a glob pattern. -/
def gtokenize (l : List Char) : List GTok := gtokenizeF l.length l

/-- Character class membership, honoring negation. -/
def inCls (neg : Bool) (rs : List (Char × Char)) (c : Char) : Bool :=
  neg != rs.any (fun r => decide (r.1 ≤ c) && decide (c ≤ r.2))

/-- Glob matching on tokens, fuel-driven (each step shrinks pattern plus name,
so fuel = pattern length + name length + 1 is always enough). -/
def gmatchF : Nat → List GTok → List Char → Bool
  | 0, _, _ => false
  | _ + 1, [], [] => true
  | _ + 1, [], _ :: _ => false
  | f + 1, .star :: ps, [] => gmatchF f ps []
  | f + 1, .star :: ps, c :: cs => gmatchF f ps (c :: cs) || gmatchF f (.star :: ps) cs
  | _ + 1, .any :: _, [] => false
  | f + 1, .any :: ps, _ :: cs => gmatchF f ps cs
  | _ + 1, .lit _ :: _, [] => false
  | f + 1, .lit a :: ps, c :: cs => a == c && gmatchF f ps cs
  | _ + 1, .cls _ _ :: _, [] => false
  | f + 1, .cls neg rs :: ps, c :: cs => inCls neg rs c && gmatchF f ps cs

/-- Python fnmatch.fnmatch(name, pat) on POSIX (normcase is the identity). -/
def fnmatch (name pat : String) : Bool :=
  gmatchF (pat.data.length + name.data.length + 1) (gtokenize pat.data) name.data

/-! ### Filesystem model -/

/-- A filesystem: the set of existing directories and the set of existing
files, each as component paths. -/
structure FS where
  dirs : Finset FPath
  files : Finset FPath
deriving DecidableEq

/-- os.path.exists. -/
def FS.exists_ (fs : FS) (p : FPath) : Prop := p ∈ fs.dirs ∨ p ∈ fs.files

instance (fs : FS) (p : FPath) : Decidable (fs.exists_ p) :=
  inferInstanceAs (Decidable (p ∈ fs.dirs ∨ p ∈ fs.files))

/-- Decidable equality of Except values, written so that it evaluates by
kernel reduction. -/
def exceptDecEq {ε α : Type} [DecidableEq ε] [DecidableEq α] :
    DecidableEq (Except ε α)
  | .error a, .error b =>
    if h : a = b then .isTrue (by rw [h]) else .isFalse (fun hh => h (by cases hh; rfl))
  | .error _, .ok _ => .isFalse (fun hh => Except.noConfusion hh)
  | .ok _, .error _ => .isFalse (fun hh => Except.noConfusion hh)
  | .ok a, .ok b =>
    if h : a = b then .isTrue (by rw [h]) else .isFalse (fun hh => h (by cases hh; rfl))

instance {ε α : Type} [DecidableEq ε] [DecidableEq α] : DecidableEq (Except ε α) :=
  exceptDecEq

/-- open(p, 'wb').close() / the file-creating half of shutil.copy: the path
becomes a file (content is not tracked). -/
def mkFile (p : FPath) (fs : FS) : FS := { fs with files := insert p fs.files }

/-- All nonempty prefixes of a path. -/
def prefixesOf (p : FPath) : Finset FPath :=
  (Finset.range p.length).image (fun n => p.take (n + 1))

/-- os.makedirs: creates the directory and all missing ancestors.  The real
call raises when the leaf already exists (every call site in the tool guards
that with an existence check) and also, with NotADirectoryError, when an
existing strict prefix of the path is a regular file.  The model is total, so
every theorem whose conclusion needs a makedirs call to succeed carries an
explicit hypothesis ruling out regular files on the ancestor chain of the
created path (claims C3 and C5); the other theorems either condition on the
operation reporting success or do not depend on the created directories. -/
def makedirs (p : FPath) (fs : FS) : FS := { fs with dirs := fs.dirs ∪ prefixesOf p }

/-- shutil.rmtree: removes the directory and everything below it; raises
(FileNotFoundError / NotADirectoryError) when the argument is not an existing
directory. -/
def rmtree (p : FPath) (fs : FS) : Except String Unit × FS :=
  if p ∈ fs.dirs then
    (.ok (), { dirs := fs.dirs.filter (fun q => ¬ p <+: q),
               files := fs.files.filter (fun q => ¬ p <+: q) })
  else (.error "rmtree: not a directory", fs)

/-- Where shutil.copy(src, dst) puts the copy: into dst when dst is a
directory, at dst itself otherwise. -/
def copyTarget (fs : FS) (dst src : FPath) : FPath :=
  if dst ∈ fs.dirs then dst ++ [src.getLastD ""] else dst

/-- shutil.copy(src, dst); fails when src is not an existing file. -/
def copyF (src dst : FPath) (fs : FS) : Except String Unit × FS :=
  if src ∈ fs.files then (.ok (), mkFile (copyTarget fs dst src) fs)
  else (.error "copy: no such file", fs)

/-! ### charm_helpers_sync.py definitions -/

/-- Line 30: the built-in default upstream repository. -/
def CHARM_HELPERS_REPO : String := "https://github.com/juju/charm-helpers"

/-- Lines 40-51, the pure part of clone_helpers: the destination path
work_dir/charm-helpers and the git command line.  The locator is split at the
first "@" when one occurs; the part after it is passed with --branch. -/
def cloneCmd (work_dir : FPath) (repo : String) : List String × FPath :=
  let dest := work_dir ++ ["charm-helpers"]
  let (repo2, branch) := pySplit1 '@' repo
  (["git", "clone", "--depth=1"] ++
     (match branch with
      | some b => ["--branch", b]
      | none => []) ++ [repo2, pathStr dest],
   dest)

/-- Lines 40-51, clone_helpers.  The git subprocess is external: its outcome
is a parameter.  On success it populates the checkout directory with the
repository tree (dirs and files given relative to the checkout root) and the
path is returned; on failure subprocess.check_call raises and the state is
unchanged. -/
def clone_helpers (work_dir : FPath) (repo : String)
    (gitOk : Bool) (repoDirs repoFiles : Finset FPath) (fs : FS) :
    Except String FPath × FS :=
  let dest := (cloneCmd work_dir repo).2
  if gitOk then
    (.ok dest,
     { dirs := fs.dirs ∪ {dest} ∪ repoDirs.image (fun p => dest ++ p),
       files := fs.files ∪ repoFiles.image (fun p => dest ++ p) })
  else (.error "CalledProcessError", fs)

/-- Lines 54-63: dotted module name to path components; join of the
components on both the source and the destination side. -/
def modulePath (module : String) : FPath := pySplit '.' module

/-- Line 58-59: source-side location of a module, under the fixed
charmhelpers top-level package directory. -/
def srcPath (src : FPath) (module : String) : FPath :=
  src ++ ["charmhelpers"] ++ modulePath module

/-- Line 62-63: destination-side location of a module. -/
def destPath (dest : FPath) (module : String) : FPath :=
  dest ++ modulePath module

/-- Appending ".py" to a path string touches its last component. -/
def addPy : FPath → FPath
  | [] => [".py"]
  | [x] => [x ++ ".py"]
  | x :: xs => x :: addPy xs

/-- Lines 66-67, _is_pyfile. -/
def isPyfile (fs : FS) (p : FPath) : Prop := addPy p ∈ fs.files

instance (fs : FS) (p : FPath) : Decidable (isPyfile fs p) :=
  inferInstanceAs (Decidable (addPy p ∈ fs.files))

/-- Lines 70-82, ensure_init: os.walk over the subtree rooted at the join of
the first two components of path, creating __init__.py in every directory
that lacks one.  os.walk of a missing or non-directory root yields nothing;
on a directory it enumerates the whole subtree (directory sets here are
prefix-closed in every reachable state, so the subtree is the set of
directories extending the root).  Creating only the missing markers is the
same, as a set, as adding a marker for every walked directory. -/
def ensure_init (path : FPath) (fs : FS) : FS :=
  if path.take 2 ∈ fs.dirs then
    { fs with
        files := fs.files ∪ (fs.dirs.filter (fun d => path.take 2 <+: d)).image
          (fun d => d ++ [initPy]) }
  else fs

/-- Lines 85-95, sync_pyfile: copy src + ".py" into dest (creating dest when
missing), copy the sibling __init__.py along when present, then ensure_init
on dest. -/
def sync_pyfile (src dest : FPath) (fs : FS) : Except String Unit × FS :=
  let srcPy := addPy src
  let src_dir := src.dropLast
  let fs1 := if fs.exists_ dest then fs else makedirs dest fs
  match copyF srcPy dest fs1 with
  | (.error e, fs2) => (.error e, fs2)
  | (.ok _, fs2) =>
    let fs3 :=
      if src_dir ++ [initPy] ∈ fs2.files then (copyF (src_dir ++ [initPy]) dest fs2).2
      else fs2
    (.ok (), ensure_init dest fs3)

/-- Lines 104-105: the include globs, from options carrying the substring
"inc=", taking the part after the last "=". -/
def incGlobs (opts : List String) : List String :=
  (opts.filter (fun o => pyContains o "inc=")).map (fun o => (pySplit '=' o).getLastD "")

/-- Lines 104-125, the closure _filter built by get_filter: given the
directory being copied and the names listed in it, return the names to
exclude.  Membership tests consult the (source-side) filesystem. -/
def filterFn (fs : FS) (opts : List String) (dir : FPath) (ls : List String) :
    List String :=
  let incs := incGlobs opts
  ls.filter (fun f =>
    let pf := dir ++ [f]
    if pf ∉ fs.dirs ∧ pyEndsWith (pathStr pf) ".py" = false ∧ incs ≠ [] then
      ¬ incs.any (fun inc => fnmatch (pathStr pf) inc)
    else if pf ∈ fs.files ∧ pyEndsWith (pathStr pf) ".py" = false then True
    else if pf ∈ fs.dirs ∧ pf ++ [initPy] ∉ fs.files then True
    else False)

/-- Lines 98-126, get_filter combined with its use as the ignore callback of
shutil.copytree: with "inc=*" among the options get_filter returns None, and
copytree with ignore=None excludes nothing; otherwise the closure applies. -/
def ignoredNames (fs : FS) (opts : List String) (dir : FPath) (ls : List String) :
    List String :=
  if "inc=*" ∈ opts then [] else filterFn fs opts dir ls

/-- The names os.listdir would report inside directory p: last components of
the entries directly below p (sorted; listdir order is unspecified and never
observable in the resulting file sets). -/
def childNames (fs : FS) (p : FPath) : List String :=
  sortNames (((fs.dirs ∪ fs.files).filter (fun q => q.length = p.length + 1 ∧ p <+: q)).image
      (fun q => q.getLastD ""))

/-- The children of p that the ignore callback keeps. -/
def keepNames (fs : FS) (opts : List String) (p : FPath) : List String :=
  let names := childNames fs p
  let ign := ignoredNames fs opts p names
  names.filter (fun f => f ∉ ign)

/-- The recursion of shutil.copytree(src, dest, ignore=get_filter(opts)),
driven by an explicit worklist of (source dir, destination dir) pairs and a
fuel bound: for each pair, list the children, drop the ignored ones, create
the destination directory, copy the kept files, and push the kept
subdirectories.  Directory listings and the ignore callback read fs0, the
filesystem at the start of the copy (the live filesystem agrees with it
whenever the destination lies outside the copied source subtree, which every
call in the tool satisfies).  Processing kept files before kept
subdirectories instead of in listing order changes nothing observable: all
writes are insertions at distinct target paths. -/
def copytreeGo (fs0 : FS) (opts : List String) :
    Nat → List (FPath × FPath) → FS → FS
  | _, [], fs => fs
  | 0, _ :: _, fs => fs
  | fuel + 1, (src, dest) :: todo, fs =>
    let names := keepNames fs0 opts src
    let fs1 := makedirs dest fs
    let fs2 := names.foldl
      (fun acc f =>
        if src ++ [f] ∈ fs0.files ∧ src ++ [f] ∉ fs0.dirs then mkFile (dest ++ [f]) acc
        else acc) fs1
    let subdirs := (names.filter (fun f => src ++ [f] ∈ fs0.dirs)).map
      (fun f => (src ++ [f], dest ++ [f]))
    copytreeGo fs0 opts fuel (subdirs ++ todo) fs2

/-- Fuel that bounds the directory recursion of one copytree call. -/
def fuelOf (fs : FS) : Nat := fs.dirs.card + 1

/-- shutil.copytree(src, dest, ignore=get_filter(opts)): fails when src is
not a directory or dest already exists, else copies the filtered tree. -/
def copytree (opts : List String) (src dest : FPath) (fs : FS) :
    Except String Unit × FS :=
  if src ∈ fs.dirs then
    if fs.exists_ dest then (.error "copytree: destination exists", fs)
    else (.ok (), copytreeGo fs opts (fuelOf fs) [(src, dest)] fs)
  else (.error "copytree: source not a directory", fs)

/-- Lines 129-137, sync_directory: full-overwrite copy of a directory
subtree, then ensure_init. -/
def sync_directory (src dest : FPath) (opts : List String) (fs : FS) :
    Except String Unit × FS :=
  let st := if fs.exists_ dest then rmtree dest fs else (.ok (), fs)
  match st with
  | (.error e, fs1) => (.error e, fs1)
  | (.ok _, fs1) =>
    match copytree opts src dest fs1 with
    | (.error e, fs2) => (.error e, fs2)
    | (.ok _, fs2) => (.ok (), ensure_init dest fs2)

/-- Lines 144-151 of sync: the while loop that syncs the __init__.py of every
proper dotted prefix of the module (done is the list of steps consumed so
far). -/
def syncInits (src dest : FPath) : FPath → List String → FS → Except String Unit × FS
  | _, [], fs => (.ok (), fs)
  | done, s :: rest, fs =>
    let done' := done ++ [s]
    match sync_pyfile (src ++ ["charmhelpers"] ++ done' ++ ["__init__"]) (dest ++ done') fs with
    | (.error e, fs1) => (.error e, fs1)
    | (.ok _, fs1) => syncInits src dest done' rest fs1

/-- The warning logged at lines 160-161. -/
def syncWarn (module : String) : String :=
  "Could not sync: " ++ module ++ ". Neither a pyfile or directory, does it even exist?"

/-- Lines 139-161, sync: bootstrap charmhelpers/__init__.py into dest, sync
the __init__.py chain of the module's dotted prefix, then sync the module as
a directory or a single .py file; a module that is neither is logged and
skipped.  The returned list collects the warnings logged by this call. -/
def sync (src dest : FPath) (module : String) (opts : List String) (fs : FS) :
    Except String (List String) × FS :=
  match sync_pyfile (srcPath src "__init__") dest fs with
  | (.error e, fs1) => (.error e, fs1)
  | (.ok _, fs1) =>
    match syncInits src dest [] (modulePath module).dropLast fs1 with
    | (.error e, fs2) => (.error e, fs2)
    | (.ok _, fs2) =>
      if srcPath src module ∈ fs2.dirs then
        match sync_directory (srcPath src module) (destPath dest module) opts fs2 with
        | (.error e, fs3) => (.error e, fs3)
        | (.ok _, fs3) => (.ok [], fs3)
      else if isPyfile fs2 (srcPath src module) then
        match sync_pyfile (srcPath src module) (destPath dest module).dropLast fs2 with
        | (.error e, fs3) => (.error e, fs3)
        | (.ok _, fs3) => (.ok [], fs3)
      else (.ok [syncWarn module], fs2)

/-- Lines 164-167, parse_sync_options: None or the empty string give no
options, anything else splits on commas. -/
def parse_sync_options (options : Option String) : List String :=
  match options with
  | none => []
  | some s => if s = "" then [] else pySplit ',' s

/-- Lines 170-177, extract_options: an include spec with no pipe keeps the
global options; one pipe separates the name from per-spec options, which are
prepended to the global options; the two-target unpacking of inc.split('|')
raises ValueError when the spec contains two or more pipes.  (The model's
global options are already a list, so the isinstance(str) wrapping at lines
172-173 is the identity here.) -/
def extract_options (inc : String) (global_options : List String) :
    Except String (String × List String) :=
  if (pySplit1 '|' inc).2 = none then .ok (inc, global_options)
  else
    match pySplit '|' inc with
    | [a, b] => .ok (a, parse_sync_options (some b) ++ global_options)
    | _ => .error "ValueError: too many values to unpack"

/-- One include spec (section 3 of the spec): a bare or option-carrying
dotted name, or a mapping of a package prefix to member module names.  The
mapping is a list of key/members pairs in insertion order; per the data
model the members are lists of names (the code silently skips mapping values
of any other shape, which the typed model cannot express). -/
inductive IncSpec where
  | str : String → IncSpec
  | map : List (String × List String) → IncSpec
deriving DecidableEq, Repr

/-- Lines 197-199: the inner loop over the members of one mapping key. -/
def syncMembers (src dest : FPath) (gopts : List String) (k : String) :
    List String → FS → Except String (List String) × FS
  | [], fs => (.ok [], fs)
  | m :: rest, fs =>
    match extract_options m gopts with
    | .error e => (.error e, fs)
    | .ok (inc, opts) =>
      match sync src dest (k ++ "." ++ inc) opts fs with
      | (.error e, fs1) => (.error e, fs1)
      | (.ok w, fs1) =>
        match syncMembers src dest gopts k rest fs1 with
        | (.ok ws, fs2) => (.ok (w ++ ws), fs2)
        | (.error e, fs2) => (.error e, fs2)

/-- Lines 195-199: the loop over the key/members pairs of a mapping spec. -/
def syncEntries (src dest : FPath) (gopts : List String) :
    List (String × List String) → FS → Except String (List String) × FS
  | [], fs => (.ok [], fs)
  | (k, v) :: rest, fs =>
    match syncMembers src dest gopts k v fs with
    | (.error e, fs1) => (.error e, fs1)
    | (.ok w, fs1) =>
      match syncEntries src dest gopts rest fs1 with
      | (.ok ws, fs2) => (.ok (w ++ ws), fs2)
      | (.error e, fs2) => (.error e, fs2)

/-- Lines 189-199: the per-include loop of sync_helpers. -/
def syncList (src dest : FPath) (gopts : List String) :
    List IncSpec → FS → Except String (List String) × FS
  | [], fs => (.ok [], fs)
  | .str inc :: rest, fs =>
    match extract_options inc gopts with
    | .error e => (.error e, fs)
    | .ok (m, opts) =>
      match sync src dest m opts fs with
      | (.error e, fs1) => (.error e, fs1)
      | (.ok w, fs1) =>
        match syncList src dest gopts rest fs1 with
        | (.ok ws, fs2) => (.ok (w ++ ws), fs2)
        | (.error e, fs2) => (.error e, fs2)
  | .map entries :: rest, fs =>
    match syncEntries src dest gopts entries fs with
    | (.error e, fs1) => (.error e, fs1)
    | (.ok w, fs1) =>
      match syncList src dest gopts rest fs1 with
      | (.ok ws, fs2) => (.ok (w ++ ws), fs2)
      | (.error e, fs2) => (.error e, fs2)

/-- Lines 180-199, sync_helpers: wipe an existing destination, (re)create it,
then run every include spec against the global options. -/
def sync_helpers (incl : List IncSpec) (src dest : FPath) (options : Option String)
    (fs : FS) : Except String (List String) × FS :=
  let st := if fs.exists_ dest then rmtree dest fs else (.ok (), fs)
  match st with
  | (.error e, fs1) => (.error e, fs1)
  | (.ok _, fs1) =>
    let fs2 := if dest ∈ fs1.dirs then fs1 else makedirs dest fs1
    syncList src dest (parse_sync_options options) incl fs2

/-- Lines 228-231: the repository locator after merging config and CLI; the
CLI flag overrides when truthy (a present but empty -r value is falsy in
Python and does not override). -/
def resolveRepo (cfgRepo optRepo : Option String) : String :=
  let base :=
    match cfgRepo with
    | none => CHARM_HELPERS_REPO
    | some s => s
  match optRepo with
  | some s => if s = "" then base else s
  | none => base

/-- The configuration reaching the sync run, after merge and validation. -/
structure MainCfg where
  repo : String
  destination : String
  incl : List IncSpec
  options : Option String
deriving DecidableEq, Repr

/-- Lines 219-248: merge of config file values with CLI flags, and the two
validation exits: no resolvable destination, and no include list with no
positional arguments.  (Config-file reading itself is external; the model
starts from the parsed values.) -/
def mergeAndValidate (cfgRepo cfgDest cfgOptions : Option String)
    (cfgIncl : Option (List IncSpec)) (optRepo optDest : Option String)
    (args : List String) : Except String MainCfg :=
  let repo := resolveRepo cfgRepo optRepo
  let destination :=
    match optDest with
    | some s => if s = "" then cfgDest else some s
    | none => cfgDest
  match destination with
  | none => .error "No destination dir. specified as option or config."
  | some d =>
    match cfgIncl with
    | some l => .ok ⟨repo, d, l, cfgOptions⟩
    | none =>
      if args = [] then .error "No modules to sync specified as option or config."
      else .ok ⟨repo, d, args.map .str, cfgOptions⟩

/-- Exit status of the process given the outcome of the guarded body: an
uncaught exception (re-raised at line 256) makes the interpreter exit
nonzero. -/
def exitCode (r : Except String (List String)) : Nat :=
  match r with
  | .ok _ => 0
  | .error _ => 1

/-- Lines 249-259: the run from the creation of the scratch workspace tmpd:
clone into it, batch-sync out of the checkout, re-raise any exception, and
remove the scratch tree in the finally block regardless.  An exception
raised by the finally block itself replaces the result, as in Python. -/
def runSync (gitOk : Bool) (repoDirs repoFiles : Finset FPath) (repo : String)
    (incl : List IncSpec) (destination : FPath) (options : Option String)
    (tmpd : FPath) (fs : FS) : Except String (List String) × FS :=
  let body : Except String (List String) × FS :=
    match clone_helpers tmpd repo gitOk repoDirs repoFiles fs with
    | (.error e, fs1) => (.error e, fs1)
    | (.ok checkout, fs1) => sync_helpers incl checkout destination options fs1
  match rmtree tmpd body.2 with
  | (.error e, fs2) => (.error e, fs2)
  | (.ok _, fs2) => (body.1, fs2)

/-- Well-formed filesystem: every proper ancestor of a directory is a
directory, and every proper ancestor of a file is a directory.  Every state a
real filesystem can be in satisfies this, and every operation of the tool
preserves it. -/
def FS.wf (fs : FS) : Prop :=
  (∀ d ∈ fs.dirs, ∀ n, n < d.length → 0 < n → d.take n ∈ fs.dirs) ∧
  (∀ p ∈ fs.files, ∀ n, n < p.length → 0 < n → p.take n ∈ fs.dirs)

instance (fs : FS) : Decidable fs.wf :=
  inferInstanceAs (Decidable
    ((∀ d ∈ fs.dirs, ∀ n, n < d.length → 0 < n → d.take n ∈ fs.dirs) ∧
     (∀ p ∈ fs.files, ∀ n, n < p.length → 0 < n → p.take n ∈ fs.dirs)))

/-- Modelled from the spec's words (section 4.5, exclusion rule), for
comparison with the filter closure of get_filter: a child entry f of
directory dir is excluded iff (1) f is not a directory, does not end in the
code-file suffix, and at least one include glob is configured, and f matches
no include glob (shell filename matching against the joined, case- and
path-literal name); else (2) f is a file not ending in the code-file suffix;
else (3) f is a directory that does not itself contain a package-marker
file; otherwise f is included. -/
def filterSpecExcluded (fs : FS) (opts : List String) (dir : FPath) (f : String) : Prop :=
  let pf := dir ++ [f]
  let incs := incGlobs opts
  if pf ∉ fs.dirs ∧ pyEndsWith (pathStr pf) ".py" = false ∧ incs ≠ [] then
    ∀ inc ∈ incs, fnmatch (pathStr pf) inc = false
  else if pf ∈ fs.files ∧ pyEndsWith (pathStr pf) ".py" = false then True
  else if pf ∈ fs.dirs ∧ pf ++ [initPy] ∉ fs.files then True
  else False

/-- The concrete source directory of claim C2: a directory containing
a.py, b.txt and c.dat. -/
def c2FS : FS :=
  { dirs := {["srcd", "mod"]},
    files := {["srcd", "mod", "a.py"], ["srcd", "mod", "b.txt"], ["srcd", "mod", "c.dat"]} }

/-- A concrete checkout used by witnesses: a scratch clone holding
charmhelpers/__init__.py and a core package with host.py. -/
def exSrcFS : FS :=
  { dirs := { ["tmp"], ["tmp", "charm-helpers"], ["tmp", "charm-helpers", "charmhelpers"],
              ["tmp", "charm-helpers", "charmhelpers", "core"] },
    files := { ["tmp", "charm-helpers", "charmhelpers", "__init__.py"],
               ["tmp", "charm-helpers", "charmhelpers", "core", "__init__.py"],
               ["tmp", "charm-helpers", "charmhelpers", "core", "host.py"] } }

/-- The checkout of exSrcFS together with an already-created, empty
destination directory hooks/charmhelpers, as the batch-sync preparation
leaves it. -/
def exSrcDestFS : FS :=
  { dirs := exSrcFS.dirs ∪ {["hooks"], ["hooks", "charmhelpers"]},
    files := exSrcFS.files }

/-- The importability invariant of claim C1: every directory in the subtree
of the given root carries a package-marker file. -/
def initInv (root : FPath) (fs : FS) : Prop :=
  ∀ d ∈ fs.dirs, root <+: d → d ++ [initPy] ∈ fs.files

/-- An include spec that makes the per-include loop of sync_helpers perform
at least one module sync: any string spec, or a mapping with at least one
nonempty member list. -/
def IncSpec.active : IncSpec → Prop
  | .str _ => True
  | .map entries => ∃ e ∈ entries, e.2 ≠ []

instance : ∀ i : IncSpec, Decidable i.active
  | .str _ => .isTrue trivial
  | .map entries => inferInstanceAs (Decidable (∃ e ∈ entries, e.2 ≠ []))

/-- Both runs of the idempotence argument, related: the second run's state
has the same directories and the same files except for a fixed extra set F
of files (package markers the first run left outside the destination
subtree). -/
def FRel (F : Finset FPath) (s t : FS) : Prop :=
  t.dirs = s.dirs ∧ t.files = s.files ∪ F

/-- Side condition on the extra file set F: it stays clear of every path the
sync operations read or write during one run (nothing in the source subtree,
nothing in the destination subtree). -/
def Fok (F : Finset FPath) (src dest : FPath) : Prop :=
  (∀ p ∈ F, ¬ src <+: p) ∧ (∀ p ∈ F, ¬ dest <+: p)

/-- Frame facts about one sync operation: paths outside the subtree of keep
are preserved, new directories appear only under bound or as ancestors of
bound, and new files appear only under the fixed root of bound. -/
def opBounds (keep bound : FPath) (fs out : FS) : Prop :=
  (∀ p, ¬ keep <+: p → (p ∈ fs.dirs → p ∈ out.dirs) ∧ (p ∈ fs.files → p ∈ out.files)) ∧
  (∀ p ∈ out.dirs, p ∈ fs.dirs ∨ bound <+: p ∨ p <+: bound) ∧
  (∀ p ∈ out.files, p ∈ fs.files ∨ bound.take 2 <+: p)

/-- Frame facts about the per-include loop: paths not strictly below the
destination are preserved, and additions are bounded as in opBounds. -/
def listBounds (dest : FPath) (fs out : FS) : Prop :=
  (∀ p, (dest <+: p → p = dest) →
    (p ∈ fs.dirs → p ∈ out.dirs) ∧ (p ∈ fs.files → p ∈ out.files)) ∧
  (∀ p ∈ out.dirs, p ∈ fs.dirs ∨ dest <+: p ∨ p <+: dest) ∧
  (∀ p ∈ out.files, p ∈ fs.files ∨ dest.take 2 <+: p)

/-- The state every non-failing batch-sync preparation hands to the
per-include loop: everything under the destination is gone and the
destination directory with its ancestor chain exists. -/
def prepFS (dest : FPath) (fs : FS) : FS :=
  { dirs := fs.dirs.filter (fun q => ¬ dest <+: q) ∪ prefixesOf dest,
    files := fs.files.filter (fun q => ¬ dest <+: q) }

/-! ### Basic lemmas about component paths -/

theorem pref_refl (p : FPath) : p <+: p := ⟨[], by simp⟩

theorem pref_append (p t : FPath) : p <+: p ++ t := ⟨t, rfl⟩

theorem pref_trans {a b c : FPath} (h1 : a <+: b) (h2 : b <+: c) : a <+: c := by
  obtain ⟨t, rfl⟩ := h1
  obtain ⟨u, rfl⟩ := h2
  exact ⟨t ++ u, by simp⟩

theorem pref_length {a b : FPath} (h : a <+: b) : a.length ≤ b.length := by
  obtain ⟨t, rfl⟩ := h
  simp

theorem pref_take {a b : FPath} (h : a <+: b) : b.take a.length = a := by
  obtain ⟨t, rfl⟩ := h
  simp

theorem eq_of_pref_of_length {a b : FPath} (h : a <+: b) (hl : b.length ≤ a.length) :
    a = b := by
  obtain ⟨t, rfl⟩ := h
  have hlen : t.length = 0 := by
    simp only [List.length_append] at hl
    omega
  simp [List.length_eq_zero.mp hlen]

theorem take_pref (l : FPath) (n : Nat) : l.take n <+: l :=
  ⟨l.drop n, List.take_append_drop n l⟩

theorem mem_prefixesOf {q p : FPath} : q ∈ prefixesOf p ↔ q <+: p ∧ q ≠ [] := by
  unfold prefixesOf
  simp only [Finset.mem_image, Finset.mem_range]
  constructor
  · rintro ⟨n, hn, rfl⟩
    refine ⟨take_pref p (n + 1), ?_⟩
    intro hq
    have hz : (p.take (n + 1)).length = 0 := by rw [hq]; rfl
    simp only [List.length_take] at hz
    omega
  · rintro ⟨hq, hne⟩
    refine ⟨q.length - 1, ?_, ?_⟩
    · have h1 := pref_length hq
      have h2 : 0 < q.length := List.length_pos.mpr hne
      omega
    · have h2 : 0 < q.length := List.length_pos.mpr hne
      have : q.length - 1 + 1 = q.length := by omega
      rw [this, pref_take hq]

theorem self_mem_prefixesOf {p : FPath} (h : p ≠ []) : p ∈ prefixesOf p :=
  mem_prefixesOf.mpr ⟨pref_refl p, h⟩

/-! ### Lemmas about the Python string splitters -/

theorem splitFirstAux_eq_none {sep : Char} :
    ∀ l : List Char, splitFirstAux sep l = none ↔ sep ∉ l
  | [] => by simp [splitFirstAux]
  | c :: cs => by
    by_cases h : c = sep
    · subst h
      simp [splitFirstAux]
    · rcases hrec : splitFirstAux sep cs with _ | p
      · simp [splitFirstAux, if_neg h, hrec, List.mem_cons, Ne.symm h,
          ← (splitFirstAux_eq_none cs), hrec]
      · obtain ⟨b, a⟩ := p
        have hmem : sep ∈ cs := by
          by_contra hm
          rw [(splitFirstAux_eq_none cs).mpr hm] at hrec
          exact Option.noConfusion hrec
        simp [splitFirstAux, if_neg h, hrec, List.mem_cons, hmem]

theorem splitFirstAux_append (sep : Char) :
    ∀ pre : List Char, sep ∉ pre →
      ∀ post, splitFirstAux sep (pre ++ sep :: post) = some (pre, post)
  | [], _, post => by simp [splitFirstAux]
  | c :: cs, h, post => by
    have hc : ¬ c = sep := fun hh => h (hh ▸ List.mem_cons_self c cs)
    have hcs : sep ∉ cs := fun hh => h (List.mem_cons_of_mem c hh)
    simp [splitFirstAux, if_neg hc, splitFirstAux_append sep cs hcs post]

theorem pySplit1_none_iff {sep : Char} {s : String} :
    (pySplit1 sep s).2 = none ↔ sep ∉ s.data := by
  unfold pySplit1
  rcases hs : splitFirstAux sep s.data with _ | p
  · simpa [hs] using (splitFirstAux_eq_none s.data).mp hs
  · obtain ⟨b, a⟩ := p
    simp only [hs]
    constructor
    · intro h
      exact Option.noConfusion h
    · intro h
      rw [(splitFirstAux_eq_none s.data).mpr h] at hs
      exact Option.noConfusion hs

theorem pySplit1_append {pre post : String} (h : '@' ∉ pre.data) :
    pySplit1 '@' (pre ++ "@" ++ post) = (pre, some post) := by
  have hd : (pre ++ "@" ++ post).data = pre.data ++ '@' :: post.data := by
    simp [String.data_append]
  unfold pySplit1
  rw [hd, splitFirstAux_append '@' pre.data h post.data]

theorem chSplit_ne_nil (sep : Char) : ∀ l : List Char, chSplit sep l ≠ []
  | [] => by simp [chSplit]
  | c :: cs => by
    unfold chSplit
    by_cases h : c = sep
    · simp [h]
    · rcases hrec : chSplit sep cs with _ | ⟨x, xs⟩
      · exact absurd hrec (chSplit_ne_nil sep cs)
      · simp [if_neg h, hrec]

theorem chSplit_length_one {sep : Char} :
    ∀ l : List Char, (chSplit sep l).length = 1 ↔ sep ∉ l
  | [] => by simp [chSplit]
  | c :: cs => by
    by_cases h : c = sep
    · subst h
      have h2 : 1 ≤ (chSplit c cs).length := List.length_pos.mpr (chSplit_ne_nil c cs)
      have hL : chSplit c (c :: cs) = [] :: chSplit c cs := by
        simp [chSplit]
      rw [hL]
      simp only [List.length_cons, List.mem_cons]
      constructor
      · intro hh
        exfalso
        omega
      · intro hh
        simp at hh
    · rcases hrec : chSplit sep cs with _ | ⟨x, xs⟩
      · exact absurd hrec (chSplit_ne_nil sep cs)
      · have := @chSplit_length_one sep cs
        rw [hrec] at this
        simp only [chSplit, if_neg h, hrec, List.length_cons, List.mem_cons] at this ⊢
        constructor
        · intro hh
          rintro (rfl | hm)
          · exact h rfl
          · exact (this.mp hh) hm
        · intro hh
          exact this.mpr (fun hm => hh (Or.inr hm))

theorem pySplit_length_eq_chSplit {sep : Char} {s : String} :
    (pySplit sep s).length = (chSplit sep s.data).length := by
  simp [pySplit]

/-! ### Claim C4 (extract_options) -/

/-- Claim C4 as stated is false: it asserts that option extraction
"never fails for any string input", but an include spec containing two or
more pipes makes the two-target unpacking of inc.split('|') raise
ValueError; at the concrete input "a|b|c" extract_options fails. -/
theorem c4_counterexample :
    extract_options "a|b|c" [] = .error "ValueError: too many values to unpack" := by
  decide

/-- Claim C4, amended: for every string include-spec with at most one pipe,
option extraction succeeds and yields the normalized pair: with no pipe the
name keeps exactly the global options, with exactly one pipe the per-spec
options (comma-split, empty when the suffix is empty) are prepended to the
global options; a spec with two or more pipes raises a ValueError instead of
parsing. -/
theorem c4_extract_options_amended (inc : String) (g : List String) :
    ((pySplit1 '|' inc).2 = none → extract_options inc g = .ok (inc, g)) ∧
    (∀ a b, pySplit '|' inc = [a, b] →
      extract_options inc g = .ok (a, parse_sync_options (some b) ++ g)) ∧
    (3 ≤ (pySplit '|' inc).length →
      extract_options inc g = .error "ValueError: too many values to unpack") := by
  refine ⟨?_, ?_, ?_⟩
  · intro h
    simp [extract_options, h]
  · intro a b hab
    have hlen : (chSplit '|' inc.data).length = 2 := by
      rw [← pySplit_length_eq_chSplit, hab]
      rfl
    have hmem : '|' ∈ inc.data := by
      by_contra hm
      rw [(@chSplit_length_one '|' inc.data).mpr hm] at hlen
      omega
    have hnone : ¬ (pySplit1 '|' inc).2 = none := by
      rw [pySplit1_none_iff]
      simpa using hmem
    simp [extract_options, if_neg hnone, hab]
  · intro hlen
    have hmem : '|' ∈ inc.data := by
      by_contra hm
      have := (@chSplit_length_one '|' inc.data).mpr hm
      rw [← pySplit_length_eq_chSplit] at this
      omega
    have hnone : ¬ (pySplit1 '|' inc).2 = none := by
      rw [pySplit1_none_iff]
      simpa using hmem
    rcases hL : pySplit '|' inc with _ | ⟨x, _ | ⟨y, _ | ⟨z, rest⟩⟩⟩ <;>
      rw [hL] at hlen <;> simp only [List.length_nil, List.length_cons] at hlen
    · omega
    · omega
    · omega
    · simp [extract_options, if_neg hnone, hL]

/-- Witness for the amended C4: the one-pipe spec "mod|inc=x" parses into
the name "mod" with the per-spec option prepended to the global list. -/
theorem c4_witness :
    pySplit '|' "mod|inc=x" = ["mod", "inc=x"] ∧
    extract_options "mod|inc=x" ["g"] = .ok ("mod", ["inc=x", "g"]) :=
  ⟨by decide, (c4_extract_options_amended "mod|inc=x" ["g"]).2.1 "mod" "inc=x" (by decide)⟩

/-! ### Claim C8 (repository fetcher command) -/

/-- Claim C8: the fetcher clones into work_dir/charm-helpers and returns that
path; the clone is shallow (--depth=1); a locator with an "@" delimiter is
split at the first "@", the part after it is requested explicitly via
--branch while the part before it is the cloned repository; without "@" no
branch is passed, so the default branch is used. -/
theorem c8_clone_cmd (work_dir : FPath) (repo : String) :
    (cloneCmd work_dir repo).2 = work_dir ++ ["charm-helpers"] ∧
    "--depth=1" ∈ (cloneCmd work_dir repo).1 ∧
    ((pySplit1 '@' repo).2 = none →
      (cloneCmd work_dir repo).1 =
        ["git", "clone", "--depth=1", repo, pathStr (work_dir ++ ["charm-helpers"])]) ∧
    (∀ pre post : String, repo = pre ++ "@" ++ post → '@' ∉ pre.data →
      (cloneCmd work_dir repo).1 =
        ["git", "clone", "--depth=1", "--branch", post, pre,
          pathStr (work_dir ++ ["charm-helpers"])]) := by
  refine ⟨rfl, ?_, ?_, ?_⟩
  · rcases h : pySplit1 '@' repo with ⟨r2, _ | b⟩ <;> simp [cloneCmd, h]
  · intro h
    rcases hs : pySplit1 '@' repo with ⟨r2, br⟩
    rw [hs] at h
    simp only at h
    subst h
    have hr : r2 = repo := by
      have := hs
      unfold pySplit1 at this
      rcases ha : splitFirstAux '@' repo.data with _ | p
      · rw [ha] at this
        simp only at this
        exact (Prod.mk.injEq _ _ _ _ ▸ this).1.symm ▸ rfl
      · rw [ha] at this
        obtain ⟨b, a⟩ := p
        simp at this
    subst hr
    simp [cloneCmd, hs]
  · rintro pre post rfl h
    simp [cloneCmd, pySplit1_append h]

/-- Witness for C8: cloning "https://r@stable" into scratch dir tmp requests
branch "stable" of "https://r" with a shallow clone into tmp/charm-helpers. -/
theorem c8_witness :
    ("https://r@stable" = "https://r" ++ "@" ++ "stable" ∧ '@' ∉ "https://r".data) ∧
    (cloneCmd ["tmp"] "https://r@stable").1 =
      ["git", "clone", "--depth=1", "--branch", "stable", "https://r",
        pathStr (["tmp"] ++ ["charm-helpers"])] :=
  ⟨⟨by decide, by decide⟩,
    (c8_clone_cmd ["tmp"] "https://r@stable").2.2.2 "https://r" "stable" (by decide) (by decide)⟩

/-! ### Claim C9 (default repository locator) -/

/-- Claim C9: when neither the configuration nor the -r flag supplies a
repository locator, merge and validation succeed (given a destination and an
include list) and the built-in default upstream URL is used. -/
theorem c9_default_repo (cfgDest : String) (cfgOptions : Option String)
    (incl : List IncSpec) (args : List String) :
    mergeAndValidate none (some cfgDest) cfgOptions (some incl) none none args =
      .ok ⟨"https://github.com/juju/charm-helpers", cfgDest, incl, cfgOptions⟩ := by
  simp [mergeAndValidate, resolveRepo, CHARM_HELPERS_REPO]

/-! ### Claim C10 (ensure_init touches the whole subtree of the fixed root) -/

/-- Claim C10: ensure_init creates the package marker in every directory of
the entire subtree rooted at the first two components of its path argument —
any existing directory extending that root receives a marker, whether or not
it lies on the chain from the root down to the target path. -/
theorem c10_ensure_init_whole_subtree (path : FPath) (fs : FS) (d : FPath)
    (hroot : path.take 2 ∈ fs.dirs) (hd : d ∈ fs.dirs) (hpre : path.take 2 <+: d) :
    d ++ [initPy] ∈ (ensure_init path fs).files := by
  unfold ensure_init
  simp only [if_pos hroot, Finset.mem_union, Finset.mem_image, Finset.mem_filter]
  exact Or.inr ⟨d, ⟨hd, hpre⟩, rfl⟩

/-- Witness for C10, with a directory ["a","b","off"] that is not on the
chain from the root ["a","b"] down to the target ["a","b","t","leaf"]: it
still receives a package marker. -/
theorem c10_witness :
    ((["a", "b", "t", "leaf"] : FPath).take 2 ∈
        ({ dirs := {["a", "b"], ["a", "b", "off"]}, files := ∅ } : FS).dirs ∧
      ["a", "b", "off"] ∈ ({ dirs := {["a", "b"], ["a", "b", "off"]}, files := ∅ } : FS).dirs ∧
      (["a", "b", "t", "leaf"] : FPath).take 2 <+: ["a", "b", "off"]) ∧
    ["a", "b", "off", initPy] ∈
      (ensure_init ["a", "b", "t", "leaf"]
        { dirs := {["a", "b"], ["a", "b", "off"]}, files := ∅ }).files :=
  ⟨⟨by decide, by decide, by decide⟩,
    c10_ensure_init_whole_subtree ["a", "b", "t", "leaf"]
      { dirs := {["a", "b"], ["a", "b", "off"]}, files := ∅ } ["a", "b", "off"]
      (by decide) (by decide) (by decide)⟩

theorem pref_total {a b c : FPath} (h1 : a <+: c) (h2 : b <+: c) :
    a <+: b ∨ b <+: a := by
  rcases le_total a.length b.length with hl | hl
  · left
    have ha := pref_take h1
    have hb := pref_take h2
    have hab : a = b.take a.length := by
      conv_lhs => rw [← ha]
      rw [← hb, List.take_take]
      congr 1
      omega
    rw [hab]
    exact take_pref b a.length
  · right
    have ha := pref_take h1
    have hb := pref_take h2
    have hba : b = a.take b.length := by
      conv_lhs => rw [← hb]
      rw [← ha, List.take_take]
      congr 1
      omega
    rw [hba]
    exact take_pref a b.length

/-! ### More path lemmas -/

theorem take2_pref {d l : FPath} (h : d <+: l) (h2 : 2 ≤ d.length) :
    l.take 2 = d.take 2 := by
  obtain ⟨t, rfl⟩ := h
  rw [List.take_append_eq_append_take]
  have hz : 2 - d.length = 0 := by omega
  simp [hz]

theorem take2_pref_take2 {a b : FPath} (h : a <+: b) : a.take 2 <+: b.take 2 := by
  obtain ⟨t, rfl⟩ := h
  rw [List.take_append_eq_append_take]
  exact pref_append _ _

theorem take2_ne_nil {p : FPath} (h : p ≠ []) : p.take 2 ≠ [] := by
  cases p with
  | nil => exact absurd rfl h
  | cons x xs => simp

theorem take2_mem_prefixesOf {p : FPath} (h : p ≠ []) : p.take 2 ∈ prefixesOf p :=
  mem_prefixesOf.mpr ⟨take_pref p 2, take2_ne_nil h⟩

theorem addPy_cons {x : String} {l : FPath} (h : l ≠ []) : addPy (x :: l) = x :: addPy l := by
  cases l with
  | nil => exact absurd rfl h
  | cons y ys => rfl

theorem addPy_append (a : FPath) {b : FPath} (hb : b ≠ []) :
    addPy (a ++ b) = a ++ addPy b := by
  induction a with
  | nil => rfl
  | cons x xs ih =>
    have hxb : xs ++ b ≠ [] := by simp [hb]
    simp only [List.cons_append, addPy_cons hxb, ih]

theorem pref_addPy {a b : FPath} (h : a <+: b) (hlt : a.length < b.length) :
    a <+: addPy b := by
  obtain ⟨t, rfl⟩ := h
  have ht : t ≠ [] := by
    intro hh
    subst hh
    simp at hlt
  rw [addPy_append a ht]
  exact pref_append _ _

theorem modulePath_ne_nil (m : String) : modulePath m ≠ [] := by
  unfold modulePath pySplit
  intro h
  rw [List.map_eq_nil_iff] at h
  exact chSplit_ne_nil '.' m.data h

theorem pref_dropLast {a b : FPath} (h : a <+: b) (hlt : a.length < b.length) :
    a <+: b.dropLast := by
  rw [List.dropLast_eq_take, ← pref_take h]
  have heq : List.take a.length b = (b.take (b.length - 1)).take a.length := by
    rw [List.take_take]
    congr 1
    omega
  rw [heq]
  exact take_pref _ _

/-! ### Primitive operation lemmas -/

theorem mkFile_dirs (p : FPath) (fs : FS) : (mkFile p fs).dirs = fs.dirs := rfl

theorem mkFile_files (p : FPath) (fs : FS) : (mkFile p fs).files = insert p fs.files := rfl

theorem makedirs_dirs (p : FPath) (fs : FS) :
    (makedirs p fs).dirs = fs.dirs ∪ prefixesOf p := rfl

theorem makedirs_files (p : FPath) (fs : FS) : (makedirs p fs).files = fs.files := rfl

theorem copyF_dirs (src dst : FPath) (fs : FS) : ((copyF src dst fs).2).dirs = fs.dirs := by
  unfold copyF
  split <;> rfl

theorem copyF_files_subset (src dst : FPath) (fs : FS) :
    fs.files ⊆ ((copyF src dst fs).2).files := by
  unfold copyF
  split
  · exact fun p hp => Finset.mem_insert_of_mem hp
  · exact fun p hp => hp

theorem copyF_files_bound (src dst : FPath) (fs : FS) :
    ∀ p ∈ ((copyF src dst fs).2).files, p ∈ fs.files ∨ dst <+: p := by
  unfold copyF copyTarget
  split
  · intro p hp
    rw [mkFile_files] at hp
    rcases Finset.mem_insert.mp hp with hp | hp
    · subst hp
      split
      · exact Or.inr (pref_append _ _)
      · exact Or.inr (pref_refl _)
    · exact Or.inl hp
  · exact fun p hp => Or.inl hp

theorem ensure_init_dirs (path : FPath) (fs : FS) : (ensure_init path fs).dirs = fs.dirs := by
  unfold ensure_init
  split <;> rfl

theorem ensure_init_files_subset (path : FPath) (fs : FS) :
    fs.files ⊆ (ensure_init path fs).files := by
  unfold ensure_init
  split
  · exact fun p hp => Finset.mem_union_left _ hp
  · exact fun p hp => hp

theorem ensure_init_files_bound (path : FPath) (fs : FS) :
    ∀ p ∈ (ensure_init path fs).files, p ∈ fs.files ∨ path.take 2 <+: p := by
  unfold ensure_init
  split
  · intro p hp
    rcases Finset.mem_union.mp hp with hp | hp
    · exact Or.inl hp
    · obtain ⟨d, hd, rfl⟩ := Finset.mem_image.mp hp
      exact Or.inr (pref_trans (Finset.mem_filter.mp hd).2 (pref_append d [initPy]))
  · exact fun p hp => Or.inl hp

theorem ensure_init_inv {path : FPath} {fs : FS} (h : path.take 2 ∈ fs.dirs) :
    initInv (path.take 2) (ensure_init path fs) := by
  intro d hd hpre
  rw [ensure_init_dirs] at hd
  unfold ensure_init
  rw [if_pos h]
  exact Finset.mem_union_right _ (Finset.mem_image.mpr ⟨d, Finset.mem_filter.mpr ⟨hd, hpre⟩, rfl⟩)

theorem rmtree_of_mem {p : FPath} {fs : FS} (h : p ∈ fs.dirs) :
    rmtree p fs = (.ok (), { dirs := fs.dirs.filter (fun q => ¬ p <+: q),
                             files := fs.files.filter (fun q => ¬ p <+: q) }) := by
  unfold rmtree
  rw [if_pos h]

theorem rmtree_of_not_mem {p : FPath} {fs : FS} (h : p ∉ fs.dirs) :
    rmtree p fs = (.error "rmtree: not a directory", fs) := by
  unfold rmtree
  rw [if_neg h]

/-! ### copytree lemmas -/

theorem foldl_copyStep_dirs (fs0 : FS) (src dest : FPath) :
    ∀ (names : List String) (acc : FS),
      (names.foldl (fun acc f =>
        if src ++ [f] ∈ fs0.files ∧ src ++ [f] ∉ fs0.dirs then mkFile (dest ++ [f]) acc
        else acc) acc).dirs = acc.dirs
  | [], _ => rfl
  | f :: rest, acc => by
    simp only [List.foldl_cons]
    rw [foldl_copyStep_dirs fs0 src dest rest]
    split <;> rfl

theorem foldl_copyStep_files_subset (fs0 : FS) (src dest : FPath) :
    ∀ (names : List String) (acc : FS),
      acc.files ⊆ (names.foldl (fun acc f =>
        if src ++ [f] ∈ fs0.files ∧ src ++ [f] ∉ fs0.dirs then mkFile (dest ++ [f]) acc
        else acc) acc).files
  | [], _ => fun _ hp => hp
  | f :: rest, acc => by
    simp only [List.foldl_cons]
    intro p hp
    refine foldl_copyStep_files_subset fs0 src dest rest _ ?_
    split
    · exact Finset.mem_insert_of_mem hp
    · exact hp

theorem foldl_copyStep_files_bound (fs0 : FS) (src dest : FPath) :
    ∀ (names : List String) (acc : FS),
      ∀ p ∈ (names.foldl (fun acc f =>
        if src ++ [f] ∈ fs0.files ∧ src ++ [f] ∉ fs0.dirs then mkFile (dest ++ [f]) acc
        else acc) acc).files, p ∈ acc.files ∨ dest <+: p
  | [], _ => fun _ hp => Or.inl hp
  | f :: rest, acc => by
    simp only [List.foldl_cons]
    intro p hp
    rcases foldl_copyStep_files_bound fs0 src dest rest _ p hp with hp1 | hp1
    · revert hp1
      split
      · intro hp1
        rcases Finset.mem_insert.mp hp1 with hp2 | hp2
        · exact Or.inr (hp2 ▸ pref_append _ _)
        · exact Or.inl hp2
      · exact fun hp1 => Or.inl hp1
    · exact Or.inr hp1

theorem copytreeGo_dirs_subset (fs0 : FS) (opts : List String) :
    ∀ (fuel : Nat) (todo : List (FPath × FPath)) (fs : FS),
      fs.dirs ⊆ (copytreeGo fs0 opts fuel todo fs).dirs := by
  intro fuel
  induction fuel with
  | zero =>
    intro todo fs
    cases todo <;> exact fun p hp => hp
  | succ n ih =>
    intro todo fs
    cases todo with
    | nil => exact fun p hp => hp
    | cons pr rest =>
      obtain ⟨src, dest⟩ := pr
      intro p hp
      simp only [copytreeGo]
      refine ih _ _ ?_
      rw [foldl_copyStep_dirs, makedirs_dirs]
      exact Finset.mem_union_left _ hp

theorem copytreeGo_files_subset (fs0 : FS) (opts : List String) :
    ∀ (fuel : Nat) (todo : List (FPath × FPath)) (fs : FS),
      fs.files ⊆ (copytreeGo fs0 opts fuel todo fs).files := by
  intro fuel
  induction fuel with
  | zero =>
    intro todo fs
    cases todo <;> exact fun p hp => hp
  | succ n ih =>
    intro todo fs
    cases todo with
    | nil => exact fun p hp => hp
    | cons pr rest =>
      obtain ⟨src, dest⟩ := pr
      intro p hp
      simp only [copytreeGo]
      refine ih _ _ ?_
      refine foldl_copyStep_files_subset fs0 src dest _ _ ?_
      rw [makedirs_files]
      exact hp

theorem copytreeGo_dirs_bound (fs0 : FS) (opts : List String) (dest0 : FPath) :
    ∀ (fuel : Nat) (todo : List (FPath × FPath)) (fs : FS),
      (∀ pr ∈ todo, dest0 <+: pr.2) →
      ∀ p ∈ (copytreeGo fs0 opts fuel todo fs).dirs,
        p ∈ fs.dirs ∨ dest0 <+: p ∨ p <+: dest0 := by
  intro fuel
  induction fuel with
  | zero =>
    intro todo fs _ p hp
    cases todo <;> exact Or.inl hp
  | succ n ih =>
    intro todo fs htodo p hp
    cases todo with
    | nil => exact Or.inl hp
    | cons pr rest =>
      obtain ⟨src, dest⟩ := pr
      have hdest : dest0 <+: dest := htodo (src, dest) (List.mem_cons_self _ _)
      simp only [copytreeGo] at hp
      rcases ih _ _ (by
        intro q hq
        rcases List.mem_append.mp hq with hq | hq
        · obtain ⟨f, _, rfl⟩ := List.mem_map.mp hq
          exact pref_trans hdest (pref_append _ _)
        · exact htodo q (List.mem_cons_of_mem _ hq)) p hp with hp1 | hp1
      · rw [foldl_copyStep_dirs, makedirs_dirs] at hp1
        rcases Finset.mem_union.mp hp1 with hp2 | hp2
        · exact Or.inl hp2
        · have hppre := (mem_prefixesOf.mp hp2).1
          rcases pref_total hppre hdest with hp3 | hp3
          · exact Or.inr (Or.inr hp3)
          · exact Or.inr (Or.inl hp3)
      · exact Or.inr hp1

theorem copytreeGo_files_bound (fs0 : FS) (opts : List String) (dest0 : FPath) :
    ∀ (fuel : Nat) (todo : List (FPath × FPath)) (fs : FS),
      (∀ pr ∈ todo, dest0 <+: pr.2) →
      ∀ p ∈ (copytreeGo fs0 opts fuel todo fs).files,
        p ∈ fs.files ∨ dest0 <+: p := by
  intro fuel
  induction fuel with
  | zero =>
    intro todo fs _ p hp
    cases todo <;> exact Or.inl hp
  | succ n ih =>
    intro todo fs htodo p hp
    cases todo with
    | nil => exact Or.inl hp
    | cons pr rest =>
      obtain ⟨src, dest⟩ := pr
      have hdest : dest0 <+: dest := htodo (src, dest) (List.mem_cons_self _ _)
      simp only [copytreeGo] at hp
      rcases ih _ _ (by
        intro q hq
        rcases List.mem_append.mp hq with hq | hq
        · obtain ⟨f, _, rfl⟩ := List.mem_map.mp hq
          exact pref_trans hdest (pref_append _ _)
        · exact htodo q (List.mem_cons_of_mem _ hq)) p hp with hp1 | hp1
      · rcases foldl_copyStep_files_bound fs0 src dest _ _ p hp1 with hp2 | hp2
        · rw [makedirs_files] at hp2
          exact Or.inl hp2
        · exact Or.inr (pref_trans hdest hp2)
      · exact Or.inr hp1

theorem copytree_of_ok {opts : List String} {src dest : FPath} {fs out : FS}
    (h : copytree opts src dest fs = (.ok (), out)) :
    src ∈ fs.dirs ∧ ¬ fs.exists_ dest ∧
      out = copytreeGo fs opts (fuelOf fs) [(src, dest)] fs := by
  unfold copytree at h
  by_cases h1 : src ∈ fs.dirs
  · rw [if_pos h1] at h
    by_cases h2 : fs.exists_ dest
    · rw [if_pos h2] at h
      exact absurd (congrArg Prod.fst h) (by simp)
    · rw [if_neg h2] at h
      exact ⟨h1, h2, (congrArg Prod.snd h).symm⟩
  · rw [if_neg h1] at h
    exact absurd (congrArg Prod.fst h) (by simp)

theorem copytree_root_mem {opts : List String} {src dest : FPath} {fs out : FS}
    (h : copytree opts src dest fs = (.ok (), out)) (hne : dest ≠ []) :
    dest.take 2 ∈ out.dirs := by
  obtain ⟨_, _, rfl⟩ := copytree_of_ok h
  have h1 : fuelOf fs = fs.dirs.card + 1 := rfl
  rw [h1]
  simp only [copytreeGo]
  refine copytreeGo_dirs_subset fs opts _ _ _ ?_
  rw [foldl_copyStep_dirs, makedirs_dirs]
  exact Finset.mem_union_right _ (take2_mem_prefixesOf hne)

/-! ### sync_pyfile lemmas -/

theorem condMakedirs_dirs_subset (d' : FPath) (fs : FS) :
    fs.dirs ⊆ (if fs.exists_ d' then fs else makedirs d' fs).dirs := by
  split
  · exact fun p hp => hp
  · rw [makedirs_dirs]
    exact fun p hp => Finset.mem_union_left _ hp

theorem condMakedirs_dirs_bound (d' : FPath) (fs : FS) :
    ∀ p ∈ (if fs.exists_ d' then fs else makedirs d' fs).dirs,
      p ∈ fs.dirs ∨ (p <+: d' ∧ p ≠ []) := by
  split
  · exact fun p hp => Or.inl hp
  · intro p hp
    rw [makedirs_dirs] at hp
    rcases Finset.mem_union.mp hp with hp | hp
    · exact Or.inl hp
    · exact Or.inr (mem_prefixesOf.mp hp)

theorem condMakedirs_files (d' : FPath) (fs : FS) :
    (if fs.exists_ d' then fs else makedirs d' fs).files = fs.files := by
  split
  · rfl
  · exact makedirs_files d' fs

/-- Structure of one sync_pyfile call: it fails exactly when the source code
file is missing (leaving only a possible makedirs behind), and otherwise
ends with ensure_init on a state whose directories are those after the
conditional makedirs and whose files grew only inside the destination. -/
theorem sync_pyfile_cases (s' d' : FPath) (fs : FS) :
    (sync_pyfile s' d' fs =
        (.error "copy: no such file", if fs.exists_ d' then fs else makedirs d' fs) ∧
      addPy s' ∉ fs.files) ∨
    (∃ fs3 : FS,
      sync_pyfile s' d' fs = (.ok (), ensure_init d' fs3) ∧
      addPy s' ∈ fs.files ∧
      fs3.dirs = (if fs.exists_ d' then fs else makedirs d' fs).dirs ∧
      fs.files ⊆ fs3.files ∧
      (∀ p ∈ fs3.files, p ∈ fs.files ∨ d' <+: p)) := by
  have hf1 : (if fs.exists_ d' then fs else makedirs d' fs).files = fs.files :=
    condMakedirs_files d' fs
  by_cases hc : addPy s' ∈ fs.files
  · right
    simp only [sync_pyfile, copyF]
    rw [hf1, if_pos hc]
    simp only
    set fs1 := if fs.exists_ d' then fs else makedirs d' fs with hfs1
    set fs2 := mkFile (copyTarget fs1 d' (addPy s')) fs1 with hfs2
    have hfs2d : fs2.dirs = fs1.dirs := rfl
    have hfs2f : fs2.files = insert (copyTarget fs1 d' (addPy s')) fs.files := by
      rw [hfs2, mkFile_files, hf1]
    have htgt : ∀ q : FPath, d' <+: copyTarget fs1 q (addPy s') → True := fun _ _ => trivial
    by_cases hi : s'.dropLast ++ [initPy] ∈ fs2.files
    · rw [if_pos hi]
      refine ⟨(copyF (s'.dropLast ++ [initPy]) d' fs2).2, rfl, hc, ?_, ?_, ?_⟩
      · rw [copyF_dirs, hfs2d]
      · intro p hp
        refine copyF_files_subset _ _ _ ?_
        rw [hfs2f]
        exact Finset.mem_insert_of_mem hp
      · intro p hp
        rcases copyF_files_bound _ _ _ p hp with hp1 | hp1
        · rw [hfs2f] at hp1
          rcases Finset.mem_insert.mp hp1 with hp2 | hp2
          · subst hp2
            unfold copyTarget
            split
            · exact Or.inr (pref_append _ _)
            · exact Or.inr (pref_refl _)
          · exact Or.inl hp2
        · exact Or.inr hp1
    · rw [if_neg hi]
      refine ⟨fs2, rfl, hc, hfs2d, ?_, ?_⟩
      · intro p hp
        rw [hfs2f]
        exact Finset.mem_insert_of_mem hp
      · intro p hp
        rw [hfs2f] at hp
        rcases Finset.mem_insert.mp hp with hp2 | hp2
        · subst hp2
          unfold copyTarget
          split
          · exact Or.inr (pref_append _ _)
          · exact Or.inr (pref_refl _)
        · exact Or.inl hp2
  · left
    refine ⟨?_, hc⟩
    simp only [sync_pyfile, copyF]
    rw [hf1, if_neg hc]

theorem sync_pyfile_dirs_subset (s' d' : FPath) (fs : FS) :
    fs.dirs ⊆ ((sync_pyfile s' d' fs).2).dirs := by
  rcases sync_pyfile_cases s' d' fs with ⟨heq, _⟩ | ⟨fs3, heq, _, hd3, _, _⟩
  · rw [heq]
    exact condMakedirs_dirs_subset d' fs
  · rw [heq]
    simp only
    rw [ensure_init_dirs, hd3]
    exact condMakedirs_dirs_subset d' fs

theorem sync_pyfile_files_subset (s' d' : FPath) (fs : FS) :
    fs.files ⊆ ((sync_pyfile s' d' fs).2).files := by
  rcases sync_pyfile_cases s' d' fs with ⟨heq, _⟩ | ⟨fs3, heq, _, _, hf3, _⟩
  · rw [heq]
    intro p hp
    show p ∈ (if fs.exists_ d' then fs else makedirs d' fs).files
    rw [condMakedirs_files]
    exact hp
  · rw [heq]
    exact fun p hp => ensure_init_files_subset d' fs3 (hf3 hp)

theorem sync_pyfile_dirs_bound (s' d' : FPath) (fs : FS) :
    ∀ p ∈ ((sync_pyfile s' d' fs).2).dirs, p ∈ fs.dirs ∨ (p <+: d' ∧ p ≠ []) := by
  rcases sync_pyfile_cases s' d' fs with ⟨heq, _⟩ | ⟨fs3, heq, _, hd3, _, _⟩
  · rw [heq]
    exact condMakedirs_dirs_bound d' fs
  · rw [heq]
    intro p hp
    simp only at hp
    rw [ensure_init_dirs, hd3] at hp
    exact condMakedirs_dirs_bound d' fs p hp

theorem sync_pyfile_files_bound (s' d' : FPath) (fs : FS) :
    ∀ p ∈ ((sync_pyfile s' d' fs).2).files, p ∈ fs.files ∨ d'.take 2 <+: p := by
  rcases sync_pyfile_cases s' d' fs with ⟨heq, _⟩ | ⟨fs3, heq, _, _, _, hb3⟩
  · rw [heq]
    intro p hp
    simp only at hp
    rw [condMakedirs_files] at hp
    exact Or.inl hp
  · rw [heq]
    intro p hp
    simp only at hp
    rcases ensure_init_files_bound d' fs3 p hp with hp1 | hp1
    · rcases hb3 p hp1 with hp2 | hp2
      · exact Or.inl hp2
      · exact Or.inr (pref_trans (take_pref d' 2) hp2)
    · exact Or.inr hp1

theorem sync_pyfile_ok_iff (s' d' : FPath) (fs : FS) :
    (sync_pyfile s' d' fs).1 = .ok () ↔ addPy s' ∈ fs.files := by
  rcases sync_pyfile_cases s' d' fs with ⟨heq, hc⟩ | ⟨fs3, heq, hc, _, _, _⟩
  · rw [heq]
    simp [hc]
  · rw [heq]
    simp [hc]

/-- A successful sync_pyfile whose destination lies under dest establishes
the importability invariant for dest's fixed root (and keeps that root a
directory), provided the root is already a directory or the destination is
freshly created. -/
theorem sync_pyfile_inv {s' d' dest : FPath} {fs : FS} (h2 : 2 ≤ dest.length)
    (hd : dest <+: d') (hroot : dest.take 2 ∈ fs.dirs ∨ ¬ fs.exists_ d')
    (hok : (sync_pyfile s' d' fs).1 = .ok ()) :
    initInv (dest.take 2) ((sync_pyfile s' d' fs).2) ∧
      dest.take 2 ∈ ((sync_pyfile s' d' fs).2).dirs := by
  have ht2 : d'.take 2 = dest.take 2 := take2_pref hd h2
  have hne : d' ≠ [] := by
    intro hh
    subst hh
    have hl := pref_length hd
    simp only [List.length_nil, Nat.le_zero] at hl
    omega
  rcases sync_pyfile_cases s' d' fs with ⟨heq, hc⟩ | ⟨fs3, heq, hc, hd3, _, _⟩
  · rw [heq] at hok
    simp at hok
  · have hrootm : dest.take 2 ∈ fs3.dirs := by
      rw [hd3]
      rcases hroot with hroot | hroot
      · exact condMakedirs_dirs_subset d' fs hroot
      · rw [if_neg hroot, makedirs_dirs]
        exact Finset.mem_union_right _ (ht2 ▸ take2_mem_prefixesOf hne)
    have hinv : initInv (d'.take 2) (ensure_init d' fs3) :=
      ensure_init_inv (ht2 ▸ hrootm)
    rw [heq]
    simp only
    constructor
    · rw [← ht2]
      exact hinv
    · rw [ensure_init_dirs]
      exact hrootm

/-! ### Claim C2 (per-directory filter) -/

/-- Claim C2: the per-directory filter evaluates each child entry exactly by
the spec's decision tree (a non-directory non-code entry with include globs
configured is dropped unless some glob matches it; non-code files are
dropped; directories without a package marker are dropped; everything else
is kept); and on a directory containing a.py, b.txt, c.dat with include
option inc=*.txt, exactly c.dat is excluded. -/
theorem c2_directory_filter (fs : FS) (opts : List String) (dir : FPath)
    (ls : List String) (h : "inc=*" ∉ opts) :
    (∀ f, f ∈ ignoredNames fs opts dir ls ↔ f ∈ ls ∧ filterSpecExcluded fs opts dir f) ∧
    ignoredNames c2FS ["inc=*.txt"] ["srcd", "mod"] ["a.py", "b.txt", "c.dat"] = ["c.dat"] := by
  refine ⟨fun f => ?_, by decide⟩
  unfold ignoredNames filterFn filterSpecExcluded
  rw [if_neg h]
  simp only [List.mem_filter, decide_eq_true_eq]
  refine and_congr Iff.rfl ?_
  by_cases h1 : dir ++ [f] ∉ fs.dirs ∧ pyEndsWith (pathStr (dir ++ [f])) ".py" = false ∧
      incGlobs opts ≠ []
  · simp only [if_pos h1, decide_eq_true_eq, List.any_eq_true, not_exists]
    constructor
    · intro hh inc hinc
      have := hh inc
      simp only [hinc, true_and, Bool.not_eq_true] at this
      exact this
    · intro hh inc
      rintro ⟨hinc, hm⟩
      rw [hh inc hinc] at hm
      exact Bool.false_ne_true hm
  · simp only [if_neg h1]
    by_cases h2 : dir ++ [f] ∈ fs.files ∧ pyEndsWith (pathStr (dir ++ [f])) ".py" = false
    · simp [if_pos h2]
    · simp only [if_neg h2]
      by_cases h3 : dir ++ [f] ∈ fs.dirs ∧ dir ++ [f] ++ [initPy] ∉ fs.files
      · simp [if_pos h3]
      · simp [if_neg h3]

/-- Witness for C2 at the concrete directory of the claim. -/
theorem c2_witness :
    ("inc=*" ∉ ["inc=*.txt"]) ∧
    ignoredNames c2FS ["inc=*.txt"] ["srcd", "mod"] ["a.py", "b.txt", "c.dat"] = ["c.dat"] :=
  ⟨by decide,
    (c2_directory_filter c2FS ["inc=*.txt"] ["srcd", "mod"] ["a.py", "b.txt", "c.dat"]
      (by decide)).2⟩

/-! ### Claim C3 (batch sync prepares a clean destination) -/

set_option linter.unusedVariables false in
/-- Claim C3: every batch sync first brings the destination to a clean
state - created when it did not exist, wiped and recreated when it did - and
only then writes new content (the per-include loop starts from that clean
state fs0: the destination directory exists and nothing exists below it).
Hypotheses: the destination is not itself a plain file (shutil.rmtree of a
file raises, outside the claim's two cases) and no strict prefix of the
destination path is a regular file (os.makedirs raises NotADirectoryError
on such a state, so the preparation cannot succeed there). -/
theorem c3_batch_dest_prepared (incl : List IncSpec) (src dest : FPath)
    (options : Option String) (fs : FS)
    (hwf : fs.wf) (hne : dest ≠ []) (hf : dest ∉ fs.files)
    (hpf : ∀ q ∈ prefixesOf dest, q ≠ dest → q ∉ fs.files) :
    ∃ fs0 : FS,
      sync_helpers incl src dest options fs =
        syncList src dest (parse_sync_options options) incl fs0 ∧
      dest ∈ fs0.dirs ∧
      ∀ p, dest <+: p → p ≠ dest → p ∉ fs0.dirs ∧ p ∉ fs0.files := by
  have hlen : 0 < dest.length := List.length_pos.mpr hne
  by_cases hd : dest ∈ fs.dirs
  · refine ⟨makedirs dest
      { dirs := fs.dirs.filter (fun q => ¬ dest <+: q),
        files := fs.files.filter (fun q => ¬ dest <+: q) }, ?_, ?_, ?_⟩
    · have hex : fs.exists_ dest := Or.inl hd
      have hrm : rmtree dest fs =
          (.ok (), { dirs := fs.dirs.filter (fun q => ¬ dest <+: q),
                     files := fs.files.filter (fun q => ¬ dest <+: q) }) := by
        unfold rmtree
        rw [if_pos hd]
      have hnd : dest ∉ Finset.filter (fun q => ¬ dest <+: q) fs.dirs := by
        simp [pref_refl]
      simp only [sync_helpers, hex, if_true, hrm]
      rw [if_neg hnd]
    · exact Finset.mem_union_right _ (self_mem_prefixesOf hne)
    · intro p hp hpd
      constructor
      · simp only [makedirs, Finset.mem_union, Finset.mem_filter, not_or]
        refine ⟨fun hh => hh.2 hp, fun hh => ?_⟩
        have := (mem_prefixesOf.mp hh).1
        exact hpd (eq_of_pref_of_length this (pref_length hp))
      · simp only [makedirs, Finset.mem_filter, not_and]
        intro hpf
        simp [hp]
  · refine ⟨makedirs dest fs, ?_, ?_, ?_⟩
    · have hex : ¬ fs.exists_ dest := by
        intro hh
        rcases hh with hh | hh
        · exact hd hh
        · exact hf hh
      simp only [sync_helpers, hex, if_false]
      rw [if_neg hd]
    · exact Finset.mem_union_right _ (self_mem_prefixesOf hne)
    · intro p hp hpd
      have hplen : dest.length < p.length := by
        have h1 := pref_length hp
        rcases lt_or_eq_of_le h1 with h2 | h2
        · exact h2
        · exact absurd (eq_of_pref_of_length hp (le_of_eq h2.symm)).symm hpd
      constructor
      · simp only [makedirs, Finset.mem_union, not_or]
        constructor
        · intro hh
          exact hd (pref_take hp ▸ hwf.1 p hh dest.length hplen hlen)
        · intro hh
          have := (mem_prefixesOf.mp hh).1
          exact hpd (eq_of_pref_of_length this (pref_length hp))
      · intro hh
        exact hd (pref_take hp ▸ hwf.2 p hh dest.length hplen hlen)

/-- Witness for C3 at a concrete pre-populated destination. -/
theorem c3_witness :
    (({ dirs := {["hooks"], ["hooks", "ch"], ["hooks", "ch", "old"]},
        files := {["hooks", "ch", "old", "f.py"]} } : FS).wf ∧
      (["hooks", "ch"] : FPath) ≠ [] ∧
      (["hooks", "ch"] : FPath) ∉
        ({ dirs := {["hooks"], ["hooks", "ch"], ["hooks", "ch", "old"]},
           files := {["hooks", "ch", "old", "f.py"]} } : FS).files ∧
      ∀ q ∈ prefixesOf (["hooks", "ch"] : FPath), q ≠ ["hooks", "ch"] →
        q ∉ ({ dirs := {["hooks"], ["hooks", "ch"], ["hooks", "ch", "old"]},
               files := {["hooks", "ch", "old", "f.py"]} } : FS).files) ∧
    (∃ fs0 : FS,
      sync_helpers [] ["tmp", "charm-helpers"] ["hooks", "ch"] none
          { dirs := {["hooks"], ["hooks", "ch"], ["hooks", "ch", "old"]},
            files := {["hooks", "ch", "old", "f.py"]} } =
        syncList ["tmp", "charm-helpers"] ["hooks", "ch"] (parse_sync_options none) [] fs0 ∧
      ["hooks", "ch"] ∈ fs0.dirs ∧
      ∀ p, ["hooks", "ch"] <+: p → p ≠ ["hooks", "ch"] → p ∉ fs0.dirs ∧ p ∉ fs0.files) :=
  ⟨⟨by decide, by decide, by decide, by decide⟩,
    c3_batch_dest_prepared [] ["tmp", "charm-helpers"] ["hooks", "ch"] none
      { dirs := {["hooks"], ["hooks", "ch"], ["hooks", "ch", "old"]},
        files := {["hooks", "ch", "old", "f.py"]} }
      (by decide) (by decide) (by decide) (by decide)⟩

/-! ### Frame composition lemmas -/

theorem opBounds_refl (k b : FPath) (fs : FS) : opBounds k b fs fs :=
  ⟨fun _ _ => ⟨id, id⟩, fun _ hp => Or.inl hp, fun _ hp => Or.inl hp⟩

theorem opBounds_trans {k b : FPath} {fs mid out : FS}
    (h1 : opBounds k b fs mid) (h2 : opBounds k b mid out) : opBounds k b fs out := by
  obtain ⟨k1, d1, f1⟩ := h1
  obtain ⟨k2, d2, f2⟩ := h2
  refine ⟨?_, ?_, ?_⟩
  · intro p hp
    exact ⟨fun hm => (k2 p hp).1 ((k1 p hp).1 hm), fun hm => (k2 p hp).2 ((k1 p hp).2 hm)⟩
  · intro p hp
    rcases d2 p hp with h | h
    · exact d1 p h
    · exact Or.inr h
  · intro p hp
    rcases f2 p hp with h | h
    · exact f1 p h
    · exact Or.inr h

theorem sync_pyfile_opBounds {dest : FPath} (k s' d' : FPath) (fs : FS) (hd : dest <+: d') :
    opBounds k dest fs ((sync_pyfile s' d' fs).2) := by
  refine ⟨?_, ?_, ?_⟩
  · intro p _
    exact ⟨fun hm => sync_pyfile_dirs_subset s' d' fs hm,
           fun hm => sync_pyfile_files_subset s' d' fs hm⟩
  · intro p hp
    rcases sync_pyfile_dirs_bound s' d' fs p hp with h | ⟨h, _⟩
    · exact Or.inl h
    · exact Or.inr (Or.symm (pref_total h hd))
  · intro p hp
    rcases sync_pyfile_files_bound s' d' fs p hp with h | h
    · exact Or.inl h
    · exact Or.inr (pref_trans (take2_pref_take2 hd) h)

theorem syncInits_opBounds (src dest k : FPath) :
    ∀ (steps : List String) (done : FPath) (fs : FS),
      opBounds k dest fs ((syncInits src dest done steps fs).2)
  | [], _, fs => opBounds_refl k dest fs
  | s :: rest, done, fs => by
    simp only [syncInits]
    rcases hs : sync_pyfile (src ++ ["charmhelpers"] ++ (done ++ [s]) ++ ["__init__"])
        (dest ++ (done ++ [s])) fs with ⟨r, fs1⟩
    have hb1 : opBounds k dest fs fs1 := by
      have hh := sync_pyfile_opBounds k (src ++ ["charmhelpers"] ++ (done ++ [s]) ++ ["__init__"])
        (dest ++ (done ++ [s])) fs (pref_append dest (done ++ [s]))
      rw [hs] at hh
      exact hh
    cases r with
    | error e => exact hb1
    | ok u => exact opBounds_trans hb1 (syncInits_opBounds src dest k rest (done ++ [s]) fs1)

theorem syncInits_inv {src dest : FPath} (h2 : 2 ≤ dest.length) :
    ∀ (steps : List String) (done : FPath) (fs : FS),
      dest.take 2 ∈ fs.dirs → initInv (dest.take 2) fs →
      (syncInits src dest done steps fs).1 = .ok () →
      initInv (dest.take 2) ((syncInits src dest done steps fs).2) ∧
        dest.take 2 ∈ ((syncInits src dest done steps fs).2).dirs
  | [], _, fs => fun hm hi _ => ⟨hi, hm⟩
  | s :: rest, done, fs => by
    intro hm hi hok
    simp only [syncInits] at hok ⊢
    rcases hs : sync_pyfile (src ++ ["charmhelpers"] ++ (done ++ [s]) ++ ["__init__"])
        (dest ++ (done ++ [s])) fs with ⟨r, fs1⟩
    rw [hs] at hok
    cases r with
    | error e => exact absurd hok (by simp)
    | ok u =>
      have hok1 : (sync_pyfile (src ++ ["charmhelpers"] ++ (done ++ [s]) ++ ["__init__"])
          (dest ++ (done ++ [s])) fs).1 = .ok () := by
        rw [hs]
      have hpi := sync_pyfile_inv h2 (pref_append dest (done ++ [s])) (Or.inl hm) hok1
      rw [hs] at hpi
      exact syncInits_inv h2 rest (done ++ [s]) fs1 hpi.2 hpi.1 hok

/-! ### sync_directory lemmas -/

theorem copytreeGo_start_root {fs0 : FS} {opts : List String} {fuel : Nat}
    {src dest : FPath} {todo : List (FPath × FPath)} {fs : FS} (hne : dest ≠ []) :
    dest.take 2 ∈ (copytreeGo fs0 opts (fuel + 1) ((src, dest) :: todo) fs).dirs := by
  simp only [copytreeGo]
  refine copytreeGo_dirs_subset fs0 opts _ _ _ ?_
  rw [foldl_copyStep_dirs, makedirs_dirs]
  exact Finset.mem_union_right _ (take2_mem_prefixesOf hne)

theorem copytree_cases (opts : List String) (src' d' : FPath) (fs1 : FS) :
    (∃ e, copytree opts src' d' fs1 = (.error e, fs1)) ∨
    (¬ fs1.exists_ d' ∧ src' ∈ fs1.dirs ∧
      copytree opts src' d' fs1 =
        (.ok (), copytreeGo fs1 opts (fuelOf fs1) [(src', d')] fs1)) := by
  unfold copytree
  by_cases hs : src' ∈ fs1.dirs
  · rw [if_pos hs]
    by_cases he2 : fs1.exists_ d'
    · rw [if_pos he2]
      exact Or.inl ⟨_, rfl⟩
    · rw [if_neg he2]
      exact Or.inr ⟨he2, hs, rfl⟩
  · rw [if_neg hs]
    exact Or.inl ⟨_, rfl⟩

theorem sync_directory_cases (src' d' : FPath) (opts : List String) (fs : FS) :
    (∃ e, sync_directory src' d' opts fs = (.error e, fs)) ∨
    (∃ fs1 : FS,
      (fs1 = fs ∨ fs1 = { dirs := fs.dirs.filter (fun q => ¬ d' <+: q),
                          files := fs.files.filter (fun q => ¬ d' <+: q) }) ∧
      ((∃ e, sync_directory src' d' opts fs = (.error e, fs1)) ∨
       (¬ fs1.exists_ d' ∧ src' ∈ fs1.dirs ∧
        sync_directory src' d' opts fs =
          (.ok (), ensure_init d' (copytreeGo fs1 opts (fuelOf fs1) [(src', d')] fs1))))) := by
  unfold sync_directory
  by_cases he : fs.exists_ d'
  · rw [if_pos he]
    by_cases hdm : d' ∈ fs.dirs
    · rw [rmtree_of_mem hdm]
      right
      refine ⟨{ dirs := fs.dirs.filter (fun q => ¬ d' <+: q),
                files := fs.files.filter (fun q => ¬ d' <+: q) }, Or.inr rfl, ?_⟩
      dsimp only
      rcases copytree_cases opts src' d'
          { dirs := fs.dirs.filter (fun q => ¬ d' <+: q),
            files := fs.files.filter (fun q => ¬ d' <+: q) } with ⟨e, hc⟩ | ⟨he2, hs, hc⟩ <;>
        rw [hc]
      · exact Or.inl ⟨e, rfl⟩
      · exact Or.inr ⟨he2, hs, rfl⟩
    · rw [rmtree_of_not_mem hdm]
      exact Or.inl ⟨_, rfl⟩
  · rw [if_neg he]
    right
    refine ⟨fs, Or.inl rfl, ?_⟩
    dsimp only
    rcases copytree_cases opts src' d' fs with ⟨e, hc⟩ | ⟨he2, hs, hc⟩ <;> rw [hc]
    · exact Or.inl ⟨e, rfl⟩
    · exact Or.inr ⟨he2, hs, rfl⟩

theorem sync_directory_opBounds {dest : FPath} (src' d' : FPath) (opts : List String)
    (fs : FS) (hd : dest <+: d') :
    opBounds d' dest fs ((sync_directory src' d' opts fs).2) := by
  rcases sync_directory_cases src' d' opts fs with ⟨e, heq⟩ | ⟨fs1, hfs1, hrest⟩
  · rw [heq]
    exact opBounds_refl d' dest fs
  · have hb1 : opBounds d' dest fs fs1 := by
      rcases hfs1 with rfl | rfl
      · exact opBounds_refl d' dest _
      · refine ⟨?_, ?_, ?_⟩
        · intro p hp
          exact ⟨fun hm => Finset.mem_filter.mpr ⟨hm, hp⟩,
                 fun hm => Finset.mem_filter.mpr ⟨hm, hp⟩⟩
        · intro p hp
          exact Or.inl (Finset.mem_filter.mp hp).1
        · intro p hp
          exact Or.inl (Finset.mem_filter.mp hp).1
    rcases hrest with ⟨e, heq⟩ | ⟨he2, hs, heq⟩
    · rw [heq]
      exact hb1
    · rw [heq]
      refine opBounds_trans hb1 ?_
      dsimp only
      have hgo : ∀ pr ∈ [(src', d')], dest <+: pr.2 := by
        intro pr hpr
        rcases List.mem_singleton.mp hpr with rfl
        exact hd
      refine ⟨?_, ?_, ?_⟩
      · intro p _
        constructor
        · intro hm
          rw [ensure_init_dirs]
          exact copytreeGo_dirs_subset fs1 opts _ _ _ hm
        · intro hm
          exact ensure_init_files_subset _ _ (copytreeGo_files_subset fs1 opts _ _ _ hm)
      · intro p hp
        rw [ensure_init_dirs] at hp
        exact copytreeGo_dirs_bound fs1 opts dest _ _ _ hgo p hp
      · intro p hp
        rcases ensure_init_files_bound d' _ p hp with hp1 | hp1
        · rcases copytreeGo_files_bound fs1 opts dest _ _ _ hgo p hp1 with hp2 | hp2
          · exact Or.inl hp2
          · exact Or.inr (pref_trans (take_pref dest 2) hp2)
        · exact Or.inr (pref_trans (take2_pref_take2 hd) hp1)

theorem sync_directory_inv {src' d' dest : FPath} {opts : List String} {fs : FS}
    (h2 : 2 ≤ dest.length) (hd : dest <+: d')
    (hok : (sync_directory src' d' opts fs).1 = .ok ()) :
    initInv (dest.take 2) ((sync_directory src' d' opts fs).2) ∧
      dest.take 2 ∈ ((sync_directory src' d' opts fs).2).dirs := by
  have hne : d' ≠ [] := by
    intro hh
    subst hh
    have hl := pref_length hd
    simp only [List.length_nil, Nat.le_zero] at hl
    omega
  have ht2 : d'.take 2 = dest.take 2 := take2_pref hd h2
  rcases sync_directory_cases src' d' opts fs with ⟨e, heq⟩ | ⟨fs1, _, hrest⟩
  · rw [heq] at hok
    exact absurd hok (by simp)
  · rcases hrest with ⟨e, heq⟩ | ⟨_, _, heq⟩
    · rw [heq] at hok
      exact absurd hok (by simp)
    · rw [heq]
      dsimp only
      have hroot : d'.take 2 ∈ (copytreeGo fs1 opts (fuelOf fs1) [(src', d')] fs1).dirs := by
        have hfe : fuelOf fs1 = fs1.dirs.card + 1 := rfl
        rw [hfe]
        exact copytreeGo_start_root hne
      constructor
      · rw [← ht2]
        exact ensure_init_inv hroot
      · rw [ensure_init_dirs, ← ht2]
        exact hroot

/-! ### sync lemmas -/

theorem pref_cons {a b : FPath} (x : String) (h : a <+: b) : x :: a <+: x :: b := by
  obtain ⟨t, rfl⟩ := h
  exact ⟨t, rfl⟩

theorem src_pref_srcPath (src : FPath) (m : String) : src <+: srcPath src m :=
  ⟨["charmhelpers"] ++ modulePath m, by simp [srcPath]⟩

theorem srcPath_length (src : FPath) (m : String) :
    src.length < (srcPath src m).length := by
  unfold srcPath
  have := List.length_pos.mpr (modulePath_ne_nil m)
  simp only [List.length_append, List.length_cons, List.length_nil]
  omega

theorem destPath_length (dest : FPath) (m : String) :
    dest.length < (destPath dest m).length := by
  unfold destPath
  have := List.length_pos.mpr (modulePath_ne_nil m)
  simp only [List.length_append]
  omega

theorem dest_pref_destPath (dest : FPath) (m : String) : dest <+: destPath dest m :=
  pref_append dest (modulePath m)

theorem syncInits_ok (src dest : FPath) :
    ∀ (steps : List String) (done : FPath) (fs : FS),
      (∀ pre : List String, pre ≠ [] → pre <+: steps →
        src ++ ["charmhelpers"] ++ done ++ pre ++ ["__init__.py"] ∈ fs.files) →
      (syncInits src dest done steps fs).1 = .ok ()
  | [], _, _, _ => rfl
  | s :: rest, done, fs, h => by
    simp only [syncInits]
    rcases hs : sync_pyfile (src ++ ["charmhelpers"] ++ (done ++ [s]) ++ ["__init__"])
        (dest ++ (done ++ [s])) fs with ⟨r, fs1⟩
    have hsrc : addPy (src ++ ["charmhelpers"] ++ (done ++ [s]) ++ ["__init__"]) ∈ fs.files := by
      have heq : addPy (src ++ ["charmhelpers"] ++ (done ++ [s]) ++ ["__init__"]) =
          src ++ ["charmhelpers"] ++ (done ++ [s]) ++ ["__init__.py"] := by
        rw [addPy_append]
        · rfl
        · simp
      rw [heq]
      have hpre := h [s] (by simp) ⟨rest, rfl⟩
      simpa [List.append_assoc] using hpre
    have hr : r = .ok () := by
      have hok := (sync_pyfile_ok_iff (src ++ ["charmhelpers"] ++ (done ++ [s]) ++ ["__init__"])
        (dest ++ (done ++ [s])) fs).mpr hsrc
      rw [hs] at hok
      exact hok
    subst hr
    refine syncInits_ok src dest rest (done ++ [s]) fs1 ?_
    intro pre hne hpre
    have hmem := h (s :: pre) (by simp) (pref_cons s hpre)
    have hsub : fs.files ⊆ fs1.files := by
      have hh := sync_pyfile_files_subset (src ++ ["charmhelpers"] ++ (done ++ [s]) ++ ["__init__"])
        (dest ++ (done ++ [s])) fs
      rw [hs] at hh
      exact hh
    refine hsub ?_
    simpa [List.append_assoc] using hmem

theorem sync_opBounds (src dest : FPath) (module : String) (opts : List String) (fs : FS) :
    opBounds (destPath dest module) dest fs ((sync src dest module opts fs).2) := by
  unfold sync
  rcases h1 : sync_pyfile (srcPath src "__init__") dest fs with ⟨r1, fs1⟩
  have hb1 : opBounds (destPath dest module) dest fs fs1 := by
    have hh := sync_pyfile_opBounds (destPath dest module) (srcPath src "__init__") dest fs
      (pref_refl dest)
    rw [h1] at hh
    exact hh
  cases r1 with
  | error e => exact hb1
  | ok u =>
    dsimp only
    rcases h2 : syncInits src dest [] (modulePath module).dropLast fs1 with ⟨r2, fs2⟩
    have hb2 : opBounds (destPath dest module) dest fs1 fs2 := by
      have hh := syncInits_opBounds src dest (destPath dest module)
        (modulePath module).dropLast [] fs1
      rw [h2] at hh
      exact hh
    have hb12 := opBounds_trans hb1 hb2
    cases r2 with
    | error e => exact hb12
    | ok u2 =>
      dsimp only
      by_cases hdir : srcPath src module ∈ fs2.dirs
      · rw [if_pos hdir]
        rcases h3 : sync_directory (srcPath src module) (destPath dest module) opts fs2
          with ⟨r3, fs3⟩
        have hb3 : opBounds (destPath dest module) dest fs2 fs3 := by
          have hh := sync_directory_opBounds (srcPath src module) (destPath dest module) opts fs2
            (dest_pref_destPath dest module)
          rw [h3] at hh
          exact hh
        cases r3 with
        | error e => exact opBounds_trans hb12 hb3
        | ok u3 => exact opBounds_trans hb12 hb3
      · rw [if_neg hdir]
        by_cases hpy : isPyfile fs2 (srcPath src module)
        · rw [if_pos hpy]
          rcases h4 : sync_pyfile (srcPath src module) (destPath dest module).dropLast fs2
            with ⟨r4, fs4⟩
          have hd4 : dest <+: (destPath dest module).dropLast :=
            pref_dropLast (dest_pref_destPath dest module) (destPath_length dest module)
          have hb4 : opBounds (destPath dest module) dest fs2 fs4 := by
            have hh := sync_pyfile_opBounds (destPath dest module) (srcPath src module)
              (destPath dest module).dropLast fs2 hd4
            rw [h4] at hh
            exact hh
          cases r4 with
          | error e => exact opBounds_trans hb12 hb4
          | ok u4 => exact opBounds_trans hb12 hb4
        · rw [if_neg hpy]
          exact hb12

theorem sync_inv {src dest : FPath} {module : String} {opts : List String} {fs : FS}
    {ws : List String} (h2 : 2 ≤ dest.length)
    (hroot : dest.take 2 ∈ fs.dirs ∨ ¬ fs.exists_ dest)
    (hok : (sync src dest module opts fs).1 = .ok ws) :
    initInv (dest.take 2) ((sync src dest module opts fs).2) ∧
      dest.take 2 ∈ ((sync src dest module opts fs).2).dirs := by
  unfold sync at hok ⊢
  rcases h1 : sync_pyfile (srcPath src "__init__") dest fs with ⟨r1, fs1⟩
  rw [h1] at hok
  cases r1 with
  | error e => exact absurd hok (by simp)
  | ok u =>
    dsimp only at hok ⊢
    have hi1 : initInv (dest.take 2) fs1 ∧ dest.take 2 ∈ fs1.dirs := by
      have hok1 : (sync_pyfile (srcPath src "__init__") dest fs).1 = .ok () := by
        rw [h1]
      have hh := sync_pyfile_inv h2 (pref_refl dest) hroot hok1
      rw [h1] at hh
      exact hh
    rcases h2' : syncInits src dest [] (modulePath module).dropLast fs1 with ⟨r2, fs2⟩
    rw [h2'] at hok
    cases r2 with
    | error e => exact absurd hok (by simp)
    | ok u2 =>
      dsimp only at hok ⊢
      have hi2 : initInv (dest.take 2) fs2 ∧ dest.take 2 ∈ fs2.dirs := by
        have hok2 : (syncInits src dest [] (modulePath module).dropLast fs1).1 = .ok () := by
          rw [h2']
        have hh := syncInits_inv h2 (modulePath module).dropLast [] fs1 hi1.2 hi1.1 hok2
        rw [h2'] at hh
        exact hh
      by_cases hdir : srcPath src module ∈ fs2.dirs
      · rw [if_pos hdir] at hok ⊢
        rcases h3 : sync_directory (srcPath src module) (destPath dest module) opts fs2
          with ⟨r3, fs3⟩
        rw [h3] at hok
        cases r3 with
        | error e => exact absurd hok (by simp)
        | ok u3 =>
          have hok3 : (sync_directory (srcPath src module) (destPath dest module) opts fs2).1 =
              .ok () := by
            rw [h3]
          have hh := sync_directory_inv h2 (dest_pref_destPath dest module) hok3
          rw [h3] at hh
          exact hh
      · rw [if_neg hdir] at hok ⊢
        by_cases hpy : isPyfile fs2 (srcPath src module)
        · rw [if_pos hpy] at hok ⊢
          rcases h4 : sync_pyfile (srcPath src module) (destPath dest module).dropLast fs2
            with ⟨r4, fs4⟩
          rw [h4] at hok
          cases r4 with
          | error e => exact absurd hok (by simp)
          | ok u4 =>
            have hd4 : dest <+: (destPath dest module).dropLast :=
              pref_dropLast (dest_pref_destPath dest module) (destPath_length dest module)
            have hok4 : (sync_pyfile (srcPath src module)
                (destPath dest module).dropLast fs2).1 = .ok () := by
              rw [h4]
            have hh := sync_pyfile_inv h2 hd4 (Or.inl hi2.2) hok4
            rw [h4] at hh
            exact hh
        · rw [if_neg hpy] at hok ⊢
          exact hi2

/-! ### The skip-with-warning path of sync -/

theorem extract_options_no_pipe {inc : String} {g : List String}
    (h : (pySplit1 '|' inc).2 = none) : extract_options inc g = .ok (inc, g) := by
  simp [extract_options, h]

theorem sync_skip {src dest : FPath} {module : String} {fs : FS}
    (hb : addPy (srcPath src "__init__") ∈ fs.files)
    (hinits : ∀ pre : List String, pre ≠ [] → pre <+: (modulePath module).dropLast →
      src ++ ["charmhelpers"] ++ pre ++ ["__init__.py"] ∈ fs.files)
    (hnd : srcPath src module ∉ fs.dirs)
    (hnf : addPy (srcPath src module) ∉ fs.files)
    (hI1 : ¬ dest.take 2 <+: src) (hI2 : ¬ src <+: dest.take 2) (opts : List String) :
    (sync src dest module opts fs).1 = .ok [syncWarn module] := by
  unfold sync
  rcases h1 : sync_pyfile (srcPath src "__init__") dest fs with ⟨r1, fs1⟩
  have hr1 : r1 = .ok () := by
    have hh := (sync_pyfile_ok_iff (srcPath src "__init__") dest fs).mpr hb
    rw [h1] at hh
    exact hh
  subst hr1
  dsimp only
  have hsub1 : fs.files ⊆ fs1.files := by
    have hh := sync_pyfile_files_subset (srcPath src "__init__") dest fs
    rw [h1] at hh
    exact hh
  rcases h2 : syncInits src dest [] (modulePath module).dropLast fs1 with ⟨r2, fs2⟩
  have hr2 : r2 = .ok () := by
    have hh := syncInits_ok src dest (modulePath module).dropLast [] fs1 (by
      intro pre hne hpre
      have hm := hinits pre hne hpre
      have := hsub1 hm
      simpa using this)
    rw [h2] at hh
    exact hh
  subst hr2
  dsimp only
  have hb1 : opBounds (destPath dest module) dest fs fs1 := by
    have hh := sync_pyfile_opBounds (destPath dest module) (srcPath src "__init__") dest fs
      (pref_refl dest)
    rw [h1] at hh
    exact hh
  have hb2 : opBounds (destPath dest module) dest fs1 fs2 := by
    have hh := syncInits_opBounds src dest (destPath dest module)
      (modulePath module).dropLast [] fs1
    rw [h2] at hh
    exact hh
  have hb12 := opBounds_trans hb1 hb2
  have hsp : src <+: srcPath src module := src_pref_srcPath src module
  have hdir : srcPath src module ∉ fs2.dirs := by
    intro hm
    rcases hb12.2.1 _ hm with hm1 | hm1 | hm1
    · exact hnd hm1
    · have ht : dest.take 2 <+: srcPath src module := pref_trans (take_pref dest 2) hm1
      rcases pref_total ht hsp with hx | hx
      · exact hI1 hx
      · exact hI2 hx
    · have hsd : src <+: dest := pref_trans hsp hm1
      rcases pref_total hsd (take_pref dest 2) with hx | hx
      · exact hI2 hx
      · exact hI1 hx
  rw [if_neg hdir]
  have hpy : ¬ isPyfile fs2 (srcPath src module) := by
    intro hm
    unfold isPyfile at hm
    rcases hb12.2.2 _ hm with hm1 | hm1
    · exact hnf hm1
    · have hsap : src <+: addPy (srcPath src module) :=
        pref_addPy hsp (srcPath_length src module)
      rcases pref_total hm1 hsap with hx | hx
      · exact hI1 hx
      · exact hI2 hx
  rw [if_neg hpy]

theorem syncList_cons_str {src dest : FPath} {module : String} {gopts : List String}
    {fs : FS} (hpipe : (pySplit1 '|' module).2 = none)
    (hsync : (sync src dest module gopts fs).1 = .ok [syncWarn module])
    (rest : List IncSpec) :
    syncList src dest gopts (.str module :: rest) fs =
      ((syncList src dest gopts rest ((sync src dest module gopts fs).2)).1.map
          (fun ws => syncWarn module :: ws),
        (syncList src dest gopts rest ((sync src dest module gopts fs).2)).2) := by
  simp only [syncList, extract_options_no_pipe hpipe]
  rcases hs : sync src dest module gopts fs with ⟨r, fs1⟩
  rw [hs] at hsync
  have hr : r = .ok [syncWarn module] := hsync
  subst hr
  dsimp only
  rcases ht : syncList src dest gopts rest fs1 with ⟨rt, ft⟩
  cases rt <;> simp [Except.map]

/-! ### Claim C5 (unresolvable modules are skipped with a warning) -/

set_option linter.unusedVariables false in
/-- Claim C5: a module dotted name that resolves under the source tree to
neither a directory nor a code file makes sync log the warning and return
normally (no exception), for any option list; and the per-include loop of
the batch sync does not abort there: processing that spec followed by the
remaining specs equals processing the remaining specs from the post-skip
state, with the warning prepended.  Hypotheses: the state is well-formed and
the destination is the freshly prepared batch destination - an existing
directory with no regular files at or below it, as sync_helpers hands it to
the loop - so no os.makedirs call on the destination side can hit a blocking
regular file; the bootstrap and intermediate package markers exist in the
source tree, the module is unresolvable, the source tree and the
destination's fixed root are in separate subtrees, and the spec carries no
pipe options. -/
theorem c5_skip_with_warning (src dest : FPath) (module : String) (fs : FS)
    (hwf : fs.wf) (hdd : dest ∈ fs.dirs) (hclean : ∀ p ∈ fs.files, ¬ dest <+: p)
    (hb : addPy (srcPath src "__init__") ∈ fs.files)
    (hinits : ∀ pre : List String, pre ≠ [] → pre <+: (modulePath module).dropLast →
      src ++ ["charmhelpers"] ++ pre ++ ["__init__.py"] ∈ fs.files)
    (hnd : srcPath src module ∉ fs.dirs)
    (hnf : addPy (srcPath src module) ∉ fs.files)
    (hI1 : ¬ dest.take 2 <+: src) (hI2 : ¬ src <+: dest.take 2)
    (hpipe : (pySplit1 '|' module).2 = none) :
    (∀ opts, (sync src dest module opts fs).1 = .ok [syncWarn module]) ∧
    (∀ (gopts : List String) (rest : List IncSpec),
      syncList src dest gopts (.str module :: rest) fs =
        ((syncList src dest gopts rest ((sync src dest module gopts fs).2)).1.map
            (fun ws => syncWarn module :: ws),
          (syncList src dest gopts rest ((sync src dest module gopts fs).2)).2)) :=
  ⟨fun opts => sync_skip hb hinits hnd hnf hI1 hI2 opts,
   fun gopts rest =>
     syncList_cons_str hpipe (sync_skip hb hinits hnd hnf hI1 hI2 gopts) rest⟩

/-- Witness for C5: the module "nosuch" is absent from the concrete
checkout; with the destination directory already prepared, sync warns and
succeeds. -/
theorem c5_witness :
    (exSrcDestFS.wf ∧
      (["hooks", "charmhelpers"] : FPath) ∈ exSrcDestFS.dirs ∧
      (∀ p ∈ exSrcDestFS.files, ¬ (["hooks", "charmhelpers"] : FPath) <+: p) ∧
      addPy (srcPath ["tmp", "charm-helpers"] "__init__") ∈ exSrcDestFS.files ∧
      srcPath ["tmp", "charm-helpers"] "nosuch" ∉ exSrcDestFS.dirs ∧
      addPy (srcPath ["tmp", "charm-helpers"] "nosuch") ∉ exSrcDestFS.files ∧
      ¬ (["hooks", "charmhelpers"] : FPath).take 2 <+: ["tmp", "charm-helpers"] ∧
      ¬ (["tmp", "charm-helpers"] : FPath) <+: (["hooks", "charmhelpers"] : FPath).take 2 ∧
      (pySplit1 '|' "nosuch").2 = none) ∧
    (sync ["tmp", "charm-helpers"] ["hooks", "charmhelpers"] "nosuch" [] exSrcDestFS).1 =
      .ok [syncWarn "nosuch"] :=
  ⟨⟨by decide, by decide, by decide, by decide, by decide, by decide, by decide, by decide,
    by decide⟩,
    (c5_skip_with_warning ["tmp", "charm-helpers"] ["hooks", "charmhelpers"] "nosuch"
      exSrcDestFS (by decide) (by decide) (by decide) (by decide)
      (fun pre hne hpre => absurd (eq_of_pref_of_length hpre (Nat.zero_le _)) hne)
      (by decide) (by decide) (by decide) (by decide) (by decide)).1 []⟩

/-! ### Frame lemmas for the per-include loop -/

theorem listBounds_refl (dest : FPath) (fs : FS) : listBounds dest fs fs :=
  ⟨fun _ _ => ⟨id, id⟩, fun _ hp => Or.inl hp, fun _ hp => Or.inl hp⟩

theorem listBounds_trans {dest : FPath} {fs mid out : FS}
    (h1 : listBounds dest fs mid) (h2 : listBounds dest mid out) : listBounds dest fs out := by
  obtain ⟨k1, d1, f1⟩ := h1
  obtain ⟨k2, d2, f2⟩ := h2
  refine ⟨?_, ?_, ?_⟩
  · intro p hp
    exact ⟨fun hm => (k2 p hp).1 ((k1 p hp).1 hm), fun hm => (k2 p hp).2 ((k1 p hp).2 hm)⟩
  · intro p hp
    rcases d2 p hp with h | h
    · exact d1 p h
    · exact Or.inr h
  · intro p hp
    rcases f2 p hp with h | h
    · exact f1 p h
    · exact Or.inr h

theorem sync_listBounds (src dest : FPath) (module : String) (opts : List String) (fs : FS) :
    listBounds dest fs ((sync src dest module opts fs).2) := by
  obtain ⟨hk, hd, hf⟩ := sync_opBounds src dest module opts fs
  refine ⟨?_, hd, hf⟩
  intro p hp
  refine hk p ?_
  intro hdp
  have hdest : dest <+: p := pref_trans (dest_pref_destPath dest module) hdp
  have hpd := hp hdest
  have hlen := pref_length hdp
  have hdl := destPath_length dest module
  rw [hpd] at hlen
  omega

theorem syncMembers_listBounds (src dest : FPath) (gopts : List String) (k : String) :
    ∀ (v : List String) (fs : FS),
      listBounds dest fs ((syncMembers src dest gopts k v fs).2)
  | [], fs => listBounds_refl dest fs
  | m :: rest, fs => by
    simp only [syncMembers]
    rcases he : extract_options m gopts with e | ⟨inc, opts⟩
    · exact listBounds_refl dest fs
    · dsimp only
      rcases hs : sync src dest (k ++ "." ++ inc) opts fs with ⟨r, fs1⟩
      have hb1 : listBounds dest fs fs1 := by
        have hh := sync_listBounds src dest (k ++ "." ++ inc) opts fs
        rw [hs] at hh
        exact hh
      cases r with
      | error e => exact hb1
      | ok w =>
        dsimp only
        rcases hr : syncMembers src dest gopts k rest fs1 with ⟨rr, fr⟩
        have hb2 : listBounds dest fs1 fr := by
          have hh := syncMembers_listBounds src dest gopts k rest fs1
          rw [hr] at hh
          exact hh
        cases rr with
        | error e => exact listBounds_trans hb1 hb2
        | ok ws => exact listBounds_trans hb1 hb2

theorem syncEntries_listBounds (src dest : FPath) (gopts : List String) :
    ∀ (entries : List (String × List String)) (fs : FS),
      listBounds dest fs ((syncEntries src dest gopts entries fs).2)
  | [], fs => listBounds_refl dest fs
  | (k, v) :: rest, fs => by
    simp only [syncEntries]
    rcases hm : syncMembers src dest gopts k v fs with ⟨rm, fm⟩
    have hb1 : listBounds dest fs fm := by
      have hh := syncMembers_listBounds src dest gopts k v fs
      rw [hm] at hh
      exact hh
    cases rm with
    | error e => exact hb1
    | ok w =>
      dsimp only
      rcases hr : syncEntries src dest gopts rest fm with ⟨rr, fr⟩
      have hb2 : listBounds dest fm fr := by
        have hh := syncEntries_listBounds src dest gopts rest fm
        rw [hr] at hh
        exact hh
      cases rr with
      | error e => exact listBounds_trans hb1 hb2
      | ok ws => exact listBounds_trans hb1 hb2

theorem syncList_listBounds (src dest : FPath) (gopts : List String) :
    ∀ (incl : List IncSpec) (fs : FS),
      listBounds dest fs ((syncList src dest gopts incl fs).2)
  | [], fs => listBounds_refl dest fs
  | .str inc :: rest, fs => by
    simp only [syncList]
    rcases he : extract_options inc gopts with e | ⟨m, opts⟩
    · exact listBounds_refl dest fs
    · dsimp only
      rcases hs : sync src dest m opts fs with ⟨r, fs1⟩
      have hb1 : listBounds dest fs fs1 := by
        have hh := sync_listBounds src dest m opts fs
        rw [hs] at hh
        exact hh
      cases r with
      | error e => exact hb1
      | ok w =>
        dsimp only
        rcases hr : syncList src dest gopts rest fs1 with ⟨rr, fr⟩
        have hb2 : listBounds dest fs1 fr := by
          have hh := syncList_listBounds src dest gopts rest fs1
          rw [hr] at hh
          exact hh
        cases rr with
        | error e => exact listBounds_trans hb1 hb2
        | ok ws => exact listBounds_trans hb1 hb2
  | .map entries :: rest, fs => by
    simp only [syncList]
    rcases hm : syncEntries src dest gopts entries fs with ⟨rm, fm⟩
    have hb1 : listBounds dest fs fm := by
      have hh := syncEntries_listBounds src dest gopts entries fs
      rw [hm] at hh
      exact hh
    cases rm with
    | error e => exact hb1
    | ok w =>
      dsimp only
      rcases hr : syncList src dest gopts rest fm with ⟨rr, fr⟩
      have hb2 : listBounds dest fm fr := by
        have hh := syncList_listBounds src dest gopts rest fm
        rw [hr] at hh
        exact hh
      cases rr with
      | error e => exact listBounds_trans hb1 hb2
      | ok ws => exact listBounds_trans hb1 hb2

/-- Every batch sync either fails in the preparation rmtree (destination is
a plain file) leaving the state unchanged, or hands a prepared state to the
per-include loop; the prepared state differs from the input only under the
destination and its ancestor chain. -/
theorem sync_helpers_cases (incl : List IncSpec) (src dest : FPath)
    (options : Option String) (fs : FS) :
    (∃ e, sync_helpers incl src dest options fs = (.error e, fs)) ∨
    (∃ fs2 : FS,
      sync_helpers incl src dest options fs =
        syncList src dest (parse_sync_options options) incl fs2 ∧
      opBounds dest dest fs fs2 ∧
      (dest ≠ [] → dest ∈ fs2.dirs ∧ dest.take 2 ∈ fs2.dirs)) := by
  unfold sync_helpers
  by_cases he : fs.exists_ dest
  · rw [if_pos he]
    by_cases hdm : dest ∈ fs.dirs
    · rw [rmtree_of_mem hdm]
      dsimp only
      right
      rw [if_neg (by simp [pref_refl])]
      refine ⟨_, rfl, ?_, ?_⟩
      · refine ⟨?_, ?_, ?_⟩
        · intro p hp
          constructor
          · intro hm
            rw [makedirs_dirs]
            exact Finset.mem_union_left _ (Finset.mem_filter.mpr ⟨hm, hp⟩)
          · intro hm
            rw [makedirs_files]
            exact Finset.mem_filter.mpr ⟨hm, hp⟩
        · intro p hp
          rw [makedirs_dirs] at hp
          rcases Finset.mem_union.mp hp with hp | hp
          · exact Or.inl (Finset.mem_filter.mp hp).1
          · exact Or.inr (Or.inr (mem_prefixesOf.mp hp).1)
        · intro p hp
          rw [makedirs_files] at hp
          exact Or.inl (Finset.mem_filter.mp hp).1
      · intro hne
        rw [makedirs_dirs]
        exact ⟨Finset.mem_union_right _ (self_mem_prefixesOf hne),
               Finset.mem_union_right _ (take2_mem_prefixesOf hne)⟩
    · rw [rmtree_of_not_mem hdm]
      exact Or.inl ⟨_, rfl⟩
  · rw [if_neg he]
    dsimp only
    right
    have hdm : dest ∉ fs.dirs := fun hm => he (Or.inl hm)
    rw [if_neg hdm]
    refine ⟨_, rfl, ?_, ?_⟩
    · refine ⟨?_, ?_, ?_⟩
      · intro p _
        constructor
        · intro hm
          rw [makedirs_dirs]
          exact Finset.mem_union_left _ hm
        · intro hm
          rw [makedirs_files]
          exact hm
      · intro p hp
        rw [makedirs_dirs] at hp
        rcases Finset.mem_union.mp hp with hp | hp
        · exact Or.inl hp
        · exact Or.inr (Or.inr (mem_prefixesOf.mp hp).1)
      · intro p hp
        rw [makedirs_files] at hp
        exact Or.inl hp
    · intro hne
      rw [makedirs_dirs]
      exact ⟨Finset.mem_union_right _ (self_mem_prefixesOf hne),
             Finset.mem_union_right _ (take2_mem_prefixesOf hne)⟩

/-- Frame facts for a whole batch sync: everything outside the destination
subtree is preserved, and additions stay under the destination, its
ancestors, or the fixed root. -/
theorem sync_helpers_opBounds (incl : List IncSpec) (src dest : FPath)
    (options : Option String) (fs : FS) :
    opBounds dest dest fs ((sync_helpers incl src dest options fs).2) := by
  rcases sync_helpers_cases incl src dest options fs with ⟨e, heq⟩ | ⟨fs2, heq, hb, _⟩
  · rw [heq]
    exact opBounds_refl dest dest fs
  · rw [heq]
    refine opBounds_trans hb ?_
    obtain ⟨k, d, f⟩ := syncList_listBounds src dest (parse_sync_options options) incl fs2
    exact ⟨fun p hp => k p (fun hdp => absurd hdp hp), d, f⟩

/-! ### Claim C6 (scratch workspace cleanup and fetch failure) -/

/-- Claim C6: once the scratch workspace exists, every exit path of the run
removes it recursively - including when the fetch (git) step fails - and a
fetch failure propagates as an error, so the process exits nonzero. -/
theorem c6_scratch_cleanup (gitOk : Bool) (repoDirs repoFiles : Finset FPath)
    (repo : String) (incl : List IncSpec) (destination : FPath)
    (options : Option String) (tmpd : FPath) (fs : FS)
    (htd : tmpd ∈ fs.dirs) (hnd : ¬ destination <+: tmpd) :
    (∀ p, tmpd <+: p →
      p ∉ ((runSync gitOk repoDirs repoFiles repo incl destination options tmpd fs).2).dirs ∧
      p ∉ ((runSync gitOk repoDirs repoFiles repo incl destination options tmpd fs).2).files) ∧
    (gitOk = false →
      (runSync gitOk repoDirs repoFiles repo incl destination options tmpd fs).1 =
        .error "CalledProcessError" ∧
      exitCode (runSync gitOk repoDirs repoFiles repo incl destination options tmpd fs).1 = 1) := by
  unfold runSync clone_helpers
  cases gitOk with
  | false =>
    rw [if_neg (by simp)]
    dsimp only
    rw [rmtree_of_mem htd]
    dsimp only
    refine ⟨?_, fun _ => ⟨rfl, rfl⟩⟩
    intro p hp
    exact ⟨fun hm => (Finset.mem_filter.mp hm).2 hp,
           fun hm => (Finset.mem_filter.mp hm).2 hp⟩
  | true =>
    rw [if_pos rfl]
    dsimp only
    rcases hsh : sync_helpers incl (cloneCmd tmpd repo).2 destination options
        { dirs := fs.dirs ∪ {(cloneCmd tmpd repo).2} ∪
            repoDirs.image (fun p => (cloneCmd tmpd repo).2 ++ p),
          files := fs.files ∪ repoFiles.image (fun p => (cloneCmd tmpd repo).2 ++ p) }
      with ⟨rs, fss⟩
    have hkeep := (sync_helpers_opBounds incl (cloneCmd tmpd repo).2 destination options
      { dirs := fs.dirs ∪ {(cloneCmd tmpd repo).2} ∪
          repoDirs.image (fun p => (cloneCmd tmpd repo).2 ++ p),
        files := fs.files ∪ repoFiles.image (fun p => (cloneCmd tmpd repo).2 ++ p) }).1
      tmpd hnd
    rw [hsh] at hkeep
    have htd2 : tmpd ∈ fss.dirs :=
      hkeep.1 (Finset.mem_union_left _ (Finset.mem_union_left _ htd))
    rw [rmtree_of_mem htd2]
    dsimp only
    refine ⟨?_, fun h => nomatch h⟩
    intro p hp
    exact ⟨fun hm => (Finset.mem_filter.mp hm).2 hp,
           fun hm => (Finset.mem_filter.mp hm).2 hp⟩

/-- Witness for C6: with a failing git invocation on a concrete state, the
run errors out (nonzero exit) and the scratch tree is removed. -/
theorem c6_witness :
    ((["tmp"] : FPath) ∈ exSrcFS.dirs ∧ ¬ (["hooks", "ch"] : FPath) <+: ["tmp"]) ∧
    ((runSync false ∅ ∅ "https://r" [] ["hooks", "ch"] none ["tmp"] exSrcFS).1 =
        .error "CalledProcessError" ∧
      exitCode (runSync false ∅ ∅ "https://r" [] ["hooks", "ch"] none ["tmp"] exSrcFS).1 = 1) :=
  ⟨⟨by decide, by decide⟩,
    (c6_scratch_cleanup false ∅ ∅ "https://r" [] ["hooks", "ch"] none ["tmp"] exSrcFS
      (by decide) (by decide)).2 rfl⟩

/-! ### The importability invariant through the per-include loop -/

theorem syncMembers_inv {src dest : FPath} {gopts : List String} {k : String}
    (h2 : 2 ≤ dest.length) :
    ∀ (v : List String) (fs : FS) (ws : List String), dest.take 2 ∈ fs.dirs →
      (syncMembers src dest gopts k v fs).1 = .ok ws →
      dest.take 2 ∈ ((syncMembers src dest gopts k v fs).2).dirs ∧
      (initInv (dest.take 2) fs → initInv (dest.take 2) ((syncMembers src dest gopts k v fs).2)) ∧
      (v ≠ [] → initInv (dest.take 2) ((syncMembers src dest gopts k v fs).2))
  | [], fs, ws => fun hm _ => ⟨hm, id, fun h => absurd rfl h⟩
  | m :: rest, fs, ws => by
    intro hm hok
    simp only [syncMembers] at hok ⊢
    rcases he : extract_options m gopts with e | ⟨inc, opts⟩
    · rw [he] at hok
      exact absurd hok (by simp)
    · rw [he] at hok
      dsimp only at hok ⊢
      rcases hs : sync src dest (k ++ "." ++ inc) opts fs with ⟨r, fs1⟩
      rw [hs] at hok
      cases r with
      | error e => exact absurd hok (by simp)
      | ok w =>
        dsimp only at hok ⊢
        have hok1 : (sync src dest (k ++ "." ++ inc) opts fs).1 = .ok w := by
          rw [hs]
        have hi1 := sync_inv h2 (Or.inl hm) hok1
        rw [hs] at hi1
        rcases hr : syncMembers src dest gopts k rest fs1 with ⟨rr, fr⟩
        rw [hr] at hok
        cases rr with
        | error e => exact absurd hok (by simp)
        | ok ws2 =>
          have hok2 : (syncMembers src dest gopts k rest fs1).1 = .ok ws2 := by
            rw [hr]
          have hrec := syncMembers_inv h2 rest fs1 ws2 hi1.2 hok2
          rw [hr] at hrec
          exact ⟨hrec.1, fun _ => hrec.2.1 hi1.1, fun _ => hrec.2.1 hi1.1⟩

theorem syncEntries_inv {src dest : FPath} {gopts : List String}
    (h2 : 2 ≤ dest.length) :
    ∀ (entries : List (String × List String)) (fs : FS) (ws : List String),
      dest.take 2 ∈ fs.dirs →
      (syncEntries src dest gopts entries fs).1 = .ok ws →
      dest.take 2 ∈ ((syncEntries src dest gopts entries fs).2).dirs ∧
      (initInv (dest.take 2) fs →
        initInv (dest.take 2) ((syncEntries src dest gopts entries fs).2)) ∧
      ((∃ e ∈ entries, e.2 ≠ []) →
        initInv (dest.take 2) ((syncEntries src dest gopts entries fs).2))
  | [], fs, ws => fun hm _ => ⟨hm, id, fun h => by simp at h⟩
  | (k, v) :: rest, fs, ws => by
    intro hm hok
    simp only [syncEntries] at hok ⊢
    rcases hmem : syncMembers src dest gopts k v fs with ⟨rm, fm⟩
    rw [hmem] at hok
    cases rm with
    | error e => exact absurd hok (by simp)
    | ok w =>
      dsimp only at hok ⊢
      have hok1 : (syncMembers src dest gopts k v fs).1 = .ok w := by
        rw [hmem]
      have hi1 := syncMembers_inv h2 v fs w hm hok1
      rw [hmem] at hi1
      rcases hr : syncEntries src dest gopts rest fm with ⟨rr, fr⟩
      rw [hr] at hok
      cases rr with
      | error e => exact absurd hok (by simp)
      | ok ws2 =>
        have hok2 : (syncEntries src dest gopts rest fm).1 = .ok ws2 := by
          rw [hr]
        have hrec := syncEntries_inv h2 rest fm ws2 hi1.1 hok2
        rw [hr] at hrec
        refine ⟨hrec.1, fun hi => hrec.2.1 (hi1.2.1 hi), ?_⟩
        rintro ⟨e, hel, hev⟩
        rcases List.mem_cons.mp hel with rfl | hel
        · exact hrec.2.1 (hi1.2.2 hev)
        · exact hrec.2.2 ⟨e, hel, hev⟩

theorem syncList_inv {src dest : FPath} {gopts : List String}
    (h2 : 2 ≤ dest.length) :
    ∀ (incl : List IncSpec) (fs : FS) (ws : List String), dest.take 2 ∈ fs.dirs →
      (syncList src dest gopts incl fs).1 = .ok ws →
      dest.take 2 ∈ ((syncList src dest gopts incl fs).2).dirs ∧
      (initInv (dest.take 2) fs → initInv (dest.take 2) ((syncList src dest gopts incl fs).2)) ∧
      ((∃ i ∈ incl, i.active) → initInv (dest.take 2) ((syncList src dest gopts incl fs).2))
  | [], fs, ws => fun hm _ => ⟨hm, id, fun h => by simp at h⟩
  | .str inc :: rest, fs, ws => by
    intro hm hok
    simp only [syncList] at hok ⊢
    rcases he : extract_options inc gopts with e | ⟨m, opts⟩
    · rw [he] at hok
      exact absurd hok (by simp)
    · rw [he] at hok
      dsimp only at hok ⊢
      rcases hs : sync src dest m opts fs with ⟨r, fs1⟩
      rw [hs] at hok
      cases r with
      | error e => exact absurd hok (by simp)
      | ok w =>
        dsimp only at hok ⊢
        have hok1 : (sync src dest m opts fs).1 = .ok w := by
          rw [hs]
        have hi1 := sync_inv h2 (Or.inl hm) hok1
        rw [hs] at hi1
        rcases hr : syncList src dest gopts rest fs1 with ⟨rr, fr⟩
        rw [hr] at hok
        cases rr with
        | error e => exact absurd hok (by simp)
        | ok ws2 =>
          have hok2 : (syncList src dest gopts rest fs1).1 = .ok ws2 := by
            rw [hr]
          have hrec := syncList_inv h2 rest fs1 ws2 hi1.2 hok2
          rw [hr] at hrec
          exact ⟨hrec.1, fun _ => hrec.2.1 hi1.1, fun _ => hrec.2.1 hi1.1⟩
  | .map entries :: rest, fs, ws => by
    intro hm hok
    simp only [syncList] at hok ⊢
    rcases hmem : syncEntries src dest gopts entries fs with ⟨rm, fm⟩
    rw [hmem] at hok
    cases rm with
    | error e => exact absurd hok (by simp)
    | ok w =>
      dsimp only at hok ⊢
      have hok1 : (syncEntries src dest gopts entries fs).1 = .ok w := by
        rw [hmem]
      have hi1 := syncEntries_inv h2 entries fs w hm hok1
      rw [hmem] at hi1
      rcases hr : syncList src dest gopts rest fm with ⟨rr, fr⟩
      rw [hr] at hok
      cases rr with
      | error e => exact absurd hok (by simp)
      | ok ws2 =>
        have hok2 : (syncList src dest gopts rest fm).1 = .ok ws2 := by
          rw [hr]
        have hrec := syncList_inv h2 rest fm ws2 hi1.1 hok2
        rw [hr] at hrec
        refine ⟨hrec.1, fun hi => hrec.2.1 (hi1.2.1 hi), ?_⟩
        rintro ⟨i, hil, hia⟩
        rcases List.mem_cons.mp hil with rfl | hil
        · exact hrec.2.1 (hi1.2.2 hia)
        · exact hrec.2.2 ⟨i, hil, hia⟩

/-! ### Claim C1 (importability invariant) -/

/-- Claim C1: for each of the four operations of the Sync Engine
(single-file sync, directory sync, module sync, batch sync), when the
operation completes successfully, every directory of the resulting tree from
the fixed root (the first two components of the destination path) downward -
in particular every directory from that root down to any synced leaf module -
contains a package-marker file.  The single-file and module syncs require
the fixed root to be a directory already or the destination to be freshly
created (ensure_init walks nothing otherwise); the batch sync requires an
include spec that performs at least one sync. -/
theorem c1_importability :
    (∀ (s' dest : FPath) (fs : FS), 2 ≤ dest.length →
      (dest.take 2 ∈ fs.dirs ∨ ¬ fs.exists_ dest) →
      (sync_pyfile s' dest fs).1 = .ok () →
      initInv (dest.take 2) ((sync_pyfile s' dest fs).2)) ∧
    (∀ (s' dest : FPath) (opts : List String) (fs : FS), 2 ≤ dest.length →
      (sync_directory s' dest opts fs).1 = .ok () →
      initInv (dest.take 2) ((sync_directory s' dest opts fs).2)) ∧
    (∀ (src dest : FPath) (module : String) (opts : List String) (fs : FS)
      (ws : List String), 2 ≤ dest.length →
      (dest.take 2 ∈ fs.dirs ∨ ¬ fs.exists_ dest) →
      (sync src dest module opts fs).1 = .ok ws →
      initInv (dest.take 2) ((sync src dest module opts fs).2)) ∧
    (∀ (incl : List IncSpec) (src dest : FPath) (options : Option String) (fs : FS)
      (ws : List String), 2 ≤ dest.length → (∃ i ∈ incl, i.active) →
      (sync_helpers incl src dest options fs).1 = .ok ws →
      initInv (dest.take 2) ((sync_helpers incl src dest options fs).2)) := by
  refine ⟨?_, ?_, ?_, ?_⟩
  · intro s' dest fs h2 hroot hok
    exact (sync_pyfile_inv h2 (pref_refl dest) hroot hok).1
  · intro s' dest opts fs h2 hok
    exact (sync_directory_inv h2 (pref_refl dest) hok).1
  · intro src dest module opts fs ws h2 hroot hok
    exact (sync_inv h2 hroot hok).1
  · intro incl src dest options fs ws h2 hactive hok
    have hne : dest ≠ [] := by
      intro hh
      rw [hh] at h2
      simp at h2
    rcases sync_helpers_cases incl src dest options fs with ⟨e, heq⟩ | ⟨fs2, heq, _, hmem⟩
    · rw [heq] at hok
      exact absurd hok (by simp)
    · rw [heq] at hok ⊢
      exact (syncList_inv h2 incl fs2 ws (hmem hne).2 hok).2.2 hactive

lemma c1wit_ha : 2 ≤ (["hooks", "charmhelpers"] : FPath).length := by decide

lemma c1wit_hb : ∃ i ∈ [IncSpec.str "core"], i.active := by decide

lemma c1wit_hc : (sync_helpers [IncSpec.str "core"] ["tmp", "charm-helpers"]
    ["hooks", "charmhelpers"] none exSrcFS).1 = .ok [] := by decide

section

attribute [local irreducible] exSrcFS

set_option maxHeartbeats 800000 in
/-- Witness for C1, applying the batch-sync part at a concrete run: syncing
module core of the concrete checkout into hooks/charmhelpers. -/
theorem c1_witness :
    (2 ≤ (["hooks", "charmhelpers"] : FPath).length ∧
      (∃ i ∈ [IncSpec.str "core"], i.active) ∧
      (sync_helpers [IncSpec.str "core"] ["tmp", "charm-helpers"] ["hooks", "charmhelpers"]
        none exSrcFS).1 = .ok []) ∧
    initInv ((["hooks", "charmhelpers"] : FPath).take 2)
      ((sync_helpers [IncSpec.str "core"] ["tmp", "charm-helpers"] ["hooks", "charmhelpers"]
        none exSrcFS).2) :=
  ⟨⟨c1wit_ha, c1wit_hb, c1wit_hc⟩,
    c1_importability.2.2.2 [IncSpec.str "core"] ["tmp", "charm-helpers"]
      ["hooks", "charmhelpers"] none exSrcFS [] c1wit_ha c1wit_hb c1wit_hc⟩

end

/-! ### Toward claim C7: a simulation relation between the two batch runs -/

theorem FS.eq_of_parts {a b : FS} (h1 : a.dirs = b.dirs) (h2 : a.files = b.files) :
    a = b := by
  cases a
  cases b
  simp only at h1 h2
  rw [h1, h2]

theorem frel_mem_files {F : Finset FPath} {s t : FS} (hR : FRel F s t) {p : FPath}
    (hp : p ∉ F) : p ∈ t.files ↔ p ∈ s.files := by
  rw [hR.2]
  exact Finset.mem_union.trans (or_iff_left hp)

theorem frel_exists {F : Finset FPath} {s t : FS} (hR : FRel F s t) {p : FPath}
    (hp : p ∉ F) : t.exists_ p ↔ s.exists_ p := by
  unfold FS.exists_
  rw [hR.1]
  exact or_congr Iff.rfl (frel_mem_files hR hp)

theorem Fok.notm_src {F : Finset FPath} {src dest p : FPath} (hF : Fok F src dest)
    (h : src <+: p) : p ∉ F := fun hm => hF.1 p hm h

theorem Fok.notm_dest {F : Finset FPath} {src dest p : FPath} (hF : Fok F src dest)
    (h : dest <+: p) : p ∉ F := fun hm => hF.2 p hm h

theorem mkFile_frel {F : Finset FPath} {s t : FS} (hR : FRel F s t) (p : FPath) :
    FRel F (mkFile p s) (mkFile p t) := by
  refine ⟨hR.1, ?_⟩
  show insert p t.files = insert p s.files ∪ F
  rw [hR.2, Finset.insert_union]

theorem makedirs_frel {F : Finset FPath} {s t : FS} (hR : FRel F s t) (p : FPath) :
    FRel F (makedirs p s) (makedirs p t) := by
  refine ⟨?_, ?_⟩
  · show t.dirs ∪ prefixesOf p = s.dirs ∪ prefixesOf p
    rw [hR.1]
  · exact hR.2

theorem ensure_init_frel {F : Finset FPath} {s t : FS} (hR : FRel F s t) (p : FPath) :
    FRel F (ensure_init p s) (ensure_init p t) := by
  unfold ensure_init
  rw [hR.1]
  by_cases h : p.take 2 ∈ s.dirs
  · rw [if_pos h, if_pos h]
    refine ⟨rfl, ?_⟩
    show t.files ∪ _ = s.files ∪ _ ∪ F
    rw [hR.2, Finset.union_right_comm]
  · rw [if_neg h, if_neg h]
    exact hR

theorem rmtree_frel {F : Finset FPath} {s t : FS} (hR : FRel F s t) {q : FPath}
    (hq : ∀ x ∈ F, ¬ q <+: x) :
    (rmtree q t).1 = (rmtree q s).1 ∧ FRel F (rmtree q s).2 (rmtree q t).2 := by
  unfold rmtree
  rw [hR.1]
  by_cases h : q ∈ s.dirs
  · rw [if_pos h, if_pos h]
    refine ⟨rfl, rfl, ?_⟩
    show t.files.filter _ = s.files.filter _ ∪ F
    rw [hR.2, Finset.filter_union]
    congr 1
    exact Finset.filter_true_of_mem hq
  · rw [if_neg h, if_neg h]
    exact ⟨rfl, hR⟩

theorem copyF_frel {F : Finset FPath} {s t : FS} (hR : FRel F s t) {srcp : FPath}
    (hs : srcp ∉ F) (d : FPath) :
    (copyF srcp d t).1 = (copyF srcp d s).1 ∧
      FRel F (copyF srcp d s).2 (copyF srcp d t).2 := by
  unfold copyF copyTarget
  rw [hR.1]
  by_cases h : srcp ∈ s.files
  · rw [if_pos ((frel_mem_files hR hs).mpr h), if_pos h]
    exact ⟨rfl, mkFile_frel hR _⟩
  · rw [if_neg (fun hm => h ((frel_mem_files hR hs).mp hm)), if_neg h]
    exact ⟨rfl, hR⟩

theorem sync_pyfile_frel {F : Finset FPath} {s t : FS} (hR : FRel F s t) {s' d' : FPath}
    (h1 : addPy s' ∉ F) (h2 : s'.dropLast ++ [initPy] ∉ F) (h3 : d' ∉ F) :
    (sync_pyfile s' d' t).1 = (sync_pyfile s' d' s).1 ∧
      FRel F (sync_pyfile s' d' s).2 (sync_pyfile s' d' t).2 := by
  simp only [sync_pyfile]
  have hR1 : FRel F (if s.exists_ d' then s else makedirs d' s)
      (if t.exists_ d' then t else makedirs d' t) := by
    by_cases he : s.exists_ d'
    · rw [if_pos he, if_pos ((frel_exists hR h3).mpr he)]
      exact hR
    · rw [if_neg he, if_neg (fun hx => he ((frel_exists hR h3).mp hx))]
      exact makedirs_frel hR d'
  obtain ⟨hce, hcr⟩ := copyF_frel hR1 h1 d'
  rcases hcs : copyF (addPy s') d' (if s.exists_ d' then s else makedirs d' s) with ⟨r, s2⟩
  rcases hct : copyF (addPy s') d' (if t.exists_ d' then t else makedirs d' t) with ⟨rt, t2⟩
  rw [hcs, hct] at hce hcr
  simp only at hce hcr
  subst hce
  cases rt with
  | error e =>
    dsimp only
    exact ⟨rfl, hcr⟩
  | ok u =>
    dsimp only
    by_cases hg : s'.dropLast ++ [initPy] ∈ s2.files
    · rw [if_pos hg, if_pos ((frel_mem_files hcr h2).mpr hg)]
      exact ⟨rfl, ensure_init_frel ((copyF_frel hcr h2 d').2) d'⟩
    · rw [if_neg hg, if_neg (fun hx => hg ((frel_mem_files hcr h2).mp hx))]
      exact ⟨rfl, ensure_init_frel hcr d'⟩

theorem childNames_frel {F : Finset FPath} {s t : FS} (hR : FRel F s t) {p : FPath}
    (hp : ∀ x ∈ F, ¬ p <+: x) : childNames t p = childNames s p := by
  unfold childNames
  rw [hR.1, hR.2,
      show s.dirs ∪ (s.files ∪ F) = s.dirs ∪ s.files ∪ F from (Finset.union_assoc _ _ _).symm,
      Finset.filter_union,
      show F.filter (fun q => q.length = p.length + 1 ∧ p <+: q) = (∅ : Finset FPath) from
        Finset.filter_eq_empty_iff.mpr (by intro x hx hc; exact hp x hx hc.2),
      Finset.union_empty]

theorem filterFn_frel {F : Finset FPath} {s t : FS} (hR : FRel F s t) (opts : List String)
    {dir : FPath} (hp : ∀ x ∈ F, ¬ dir <+: x) (ls : List String) :
    filterFn t opts dir ls = filterFn s opts dir ls := by
  simp only [filterFn]
  refine List.filter_congr ?_
  intro f _
  have hf1 : dir ++ [f] ∉ F := fun hx => hp _ hx (pref_append _ _)
  have hf2 : dir ++ [f] ++ [initPy] ∉ F :=
    fun hx => hp _ hx (pref_trans (pref_append dir [f]) (pref_append _ _))
  have hm1 : (dir ++ [f] ∈ t.files) = (dir ++ [f] ∈ s.files) :=
    propext (frel_mem_files hR hf1)
  have hm2 : (dir ++ [f] ++ [initPy] ∈ t.files) = (dir ++ [f] ++ [initPy] ∈ s.files) :=
    propext (frel_mem_files hR hf2)
  rw [hR.1]
  simp only [hm1, hm2]

theorem keepNames_frel {F : Finset FPath} {s t : FS} (hR : FRel F s t) (opts : List String)
    {p : FPath} (hp : ∀ x ∈ F, ¬ p <+: x) :
    keepNames t opts p = keepNames s opts p := by
  simp only [keepNames, ignoredNames]
  rw [childNames_frel hR hp]
  by_cases hi : "inc=*" ∈ opts
  · simp only [if_pos hi]
  · simp only [if_neg hi, filterFn_frel hR opts hp]

theorem foldl_copyStep_frel {F : Finset FPath} (s0 t0 : FS) (src' dest' : FPath)
    (h0d : t0.dirs = s0.dirs)
    (h0f : ∀ f : String, (src' ++ [f] ∈ t0.files) ↔ (src' ++ [f] ∈ s0.files)) :
    ∀ (names : List String) (accs acct : FS), FRel F accs acct →
      FRel F (names.foldl (fun acc f =>
          if src' ++ [f] ∈ s0.files ∧ src' ++ [f] ∉ s0.dirs then mkFile (dest' ++ [f]) acc
          else acc) accs)
        (names.foldl (fun acc f =>
          if src' ++ [f] ∈ t0.files ∧ src' ++ [f] ∉ t0.dirs then mkFile (dest' ++ [f]) acc
          else acc) acct)
  | [], _, _, hR => hR
  | f :: rest, accs, acct, hR => by
    simp only [List.foldl_cons]
    refine foldl_copyStep_frel s0 t0 src' dest' h0d h0f rest _ _ ?_
    by_cases hc : src' ++ [f] ∈ s0.files ∧ src' ++ [f] ∉ s0.dirs
    · rw [if_pos hc, if_pos ⟨(h0f f).mpr hc.1, h0d ▸ hc.2⟩]
      exact mkFile_frel hR _
    · rw [if_neg hc, if_neg (fun hx => hc ⟨(h0f f).mp hx.1, h0d ▸ hx.2⟩)]
      exact hR

theorem copytreeGo_frel {F : Finset FPath} {src dest : FPath} (hF : Fok F src dest)
    {s0 t0 : FS} (hR0 : FRel F s0 t0) (opts : List String) :
    ∀ (fuel : Nat) (todo : List (FPath × FPath)), (∀ pr ∈ todo, src <+: pr.1) →
      ∀ (ss tt : FS), FRel F ss tt →
      FRel F (copytreeGo s0 opts fuel todo ss) (copytreeGo t0 opts fuel todo tt) := by
  intro fuel
  induction fuel with
  | zero =>
    intro todo _ ss tt hR
    cases todo <;> exact hR
  | succ n ih =>
    intro todo htodo ss tt hR
    cases todo with
    | nil => exact hR
    | cons pr rest =>
      obtain ⟨src', dest'⟩ := pr
      have hsrc' : src <+: src' := htodo (src', dest') (List.mem_cons_self _ _)
      have hnames : keepNames t0 opts src' = keepNames s0 opts src' :=
        keepNames_frel hR0 opts (fun x hx hpx => hF.1 x hx (pref_trans hsrc' hpx))
      simp only [copytreeGo]
      rw [hnames]
      have hsub : (keepNames s0 opts src').filter (fun f => src' ++ [f] ∈ t0.dirs) =
          (keepNames s0 opts src').filter (fun f => src' ++ [f] ∈ s0.dirs) := by
        refine List.filter_congr ?_
        intro f _
        exact decide_eq_decide.mpr (by rw [hR0.1])
      rw [hsub]
      refine ih _ ?_ _ _ ?_
      · intro q hq
        rcases List.mem_append.mp hq with hq | hq
        · obtain ⟨f, _, rfl⟩ := List.mem_map.mp hq
          exact pref_trans hsrc' (pref_append _ _)
        · exact htodo q (List.mem_cons_of_mem _ hq)
      · refine foldl_copyStep_frel s0 t0 src' dest' hR0.1 ?_ _ _ _ (makedirs_frel hR dest')
        intro f
        exact frel_mem_files hR0 (hF.notm_src (pref_trans hsrc' (pref_append _ _)))

theorem copytree_frel {F : Finset FPath} {src dest : FPath} (hF : Fok F src dest)
    {s t : FS} (hR : FRel F s t) (opts : List String) {src' d'' : FPath}
    (hs' : src <+: src') (hd'' : dest <+: d'') :
    (copytree opts src' d'' t).1 = (copytree opts src' d'' s).1 ∧
      FRel F (copytree opts src' d'' s).2 (copytree opts src' d'' t).2 := by
  have hfuel : fuelOf t = fuelOf s := by
    unfold fuelOf
    rw [hR.1]
  unfold copytree
  rw [hR.1, hfuel]
  by_cases h1 : src' ∈ s.dirs
  · rw [if_pos h1, if_pos h1]
    by_cases h2 : s.exists_ d''
    · rw [if_pos h2, if_pos ((frel_exists hR (hF.notm_dest hd'')).mpr h2)]
      exact ⟨rfl, hR⟩
    · rw [if_neg h2, if_neg (fun hx => h2 ((frel_exists hR (hF.notm_dest hd'')).mp hx))]
      refine ⟨rfl, copytreeGo_frel hF hR opts _ _ ?_ _ _ hR⟩
      intro pr hpr
      rw [List.mem_singleton] at hpr
      rw [hpr]
      exact hs'
  · rw [if_neg h1, if_neg h1]
    exact ⟨rfl, hR⟩

theorem sync_directory_frel {F : Finset FPath} {src dest : FPath} (hF : Fok F src dest)
    {s t : FS} (hR : FRel F s t) (opts : List String) {src' d'' : FPath}
    (hs' : src <+: src') (hd'' : dest <+: d'') :
    (sync_directory src' d'' opts t).1 = (sync_directory src' d'' opts s).1 ∧
      FRel F (sync_directory src' d'' opts s).2 (sync_directory src' d'' opts t).2 := by
  simp only [sync_directory]
  have hprep : ((if t.exists_ d'' then rmtree d'' t else (.ok (), t)) :
        Except String Unit × FS).1 =
      ((if s.exists_ d'' then rmtree d'' s else (.ok (), s)) :
        Except String Unit × FS).1 ∧
      FRel F ((if s.exists_ d'' then rmtree d'' s else (.ok (), s)) :
          Except String Unit × FS).2
        ((if t.exists_ d'' then rmtree d'' t else (.ok (), t)) :
          Except String Unit × FS).2 := by
    by_cases he : s.exists_ d''
    · rw [if_pos he, if_pos ((frel_exists hR (hF.notm_dest hd'')).mpr he)]
      exact rmtree_frel hR (fun x hx hdx => hF.2 x hx (pref_trans hd'' hdx))
    · rw [if_neg he, if_neg (fun hx => he ((frel_exists hR (hF.notm_dest hd'')).mp hx))]
      exact ⟨rfl, hR⟩
  rcases hps : ((if s.exists_ d'' then rmtree d'' s else (.ok (), s)) :
      Except String Unit × FS) with ⟨r, s1⟩
  rcases hpt : ((if t.exists_ d'' then rmtree d'' t else (.ok (), t)) :
      Except String Unit × FS) with ⟨rt, t1⟩
  rw [hps, hpt] at hprep
  obtain ⟨hre, hR1⟩ := hprep
  simp only at hre hR1
  subst hre
  cases rt with
  | error e =>
    dsimp only
    exact ⟨rfl, hR1⟩
  | ok u =>
    dsimp only
    obtain ⟨hce, hR2⟩ := copytree_frel hF hR1 opts hs' hd''
    rcases hcs : copytree opts src' d'' s1 with ⟨r2, s2⟩
    rcases hct : copytree opts src' d'' t1 with ⟨r2t, t2⟩
    rw [hcs, hct] at hce hR2
    simp only at hce hR2
    subst hce
    cases r2t with
    | error e =>
      dsimp only
      exact ⟨rfl, hR2⟩
    | ok u2 =>
      dsimp only
      exact ⟨rfl, ensure_init_frel hR2 d''⟩

theorem syncInits_frel {F : Finset FPath} {src dest : FPath} (hF : Fok F src dest) :
    ∀ (steps : List String) (done : FPath) (s t : FS), FRel F s t →
      (syncInits src dest done steps t).1 = (syncInits src dest done steps s).1 ∧
        FRel F (syncInits src dest done steps s).2 (syncInits src dest done steps t).2
  | [], _, _, _, hR => ⟨rfl, hR⟩
  | st :: rest, done, s, t, hR => by
    simp only [syncInits]
    have hlen : src.length <
        (src ++ ["charmhelpers"] ++ (done ++ [st]) ++ ["__init__"]).length := by
      simp only [List.length_append, List.length_cons, List.length_nil]
      omega
    have hpre : src <+: src ++ ["charmhelpers"] ++ (done ++ [st]) ++ ["__init__"] :=
      pref_trans (pref_append src ["charmhelpers"])
        (pref_trans (pref_append _ (done ++ [st])) (pref_append _ ["__init__"]))
    obtain ⟨hpe, hR1⟩ := sync_pyfile_frel hR
      (hF.notm_src (pref_addPy hpre hlen))
      (hF.notm_src (pref_trans (pref_dropLast hpre hlen) (pref_append _ _)))
      (hF.notm_dest (pref_append dest (done ++ [st])))
    rcases hcs : sync_pyfile (src ++ ["charmhelpers"] ++ (done ++ [st]) ++ ["__init__"])
        (dest ++ (done ++ [st])) s with ⟨r, s1⟩
    rcases hct : sync_pyfile (src ++ ["charmhelpers"] ++ (done ++ [st]) ++ ["__init__"])
        (dest ++ (done ++ [st])) t with ⟨rt, t1⟩
    rw [hcs, hct] at hpe hR1
    simp only at hpe hR1
    subst hpe
    cases rt with
    | error e =>
      dsimp only
      exact ⟨rfl, hR1⟩
    | ok u =>
      dsimp only
      exact syncInits_frel hF rest (done ++ [st]) s1 t1 hR1

theorem sync_frel {F : Finset FPath} {src dest : FPath} (hF : Fok F src dest)
    {s t : FS} (hR : FRel F s t) (module : String) (opts : List String) :
    (sync src dest module opts t).1 = (sync src dest module opts s).1 ∧
      FRel F (sync src dest module opts s).2 (sync src dest module opts t).2 := by
  simp only [sync]
  obtain ⟨h1e, hR1⟩ := sync_pyfile_frel hR
    (hF.notm_src (pref_addPy (src_pref_srcPath src "__init__") (srcPath_length src "__init__")))
    (hF.notm_src (pref_trans
      (pref_dropLast (src_pref_srcPath src "__init__") (srcPath_length src "__init__"))
      (pref_append _ _)))
    (hF.notm_dest (pref_refl dest))
  rcases hcs : sync_pyfile (srcPath src "__init__") dest s with ⟨r, s1⟩
  rcases hct : sync_pyfile (srcPath src "__init__") dest t with ⟨rt, t1⟩
  rw [hcs, hct] at h1e hR1
  simp only at h1e hR1
  subst h1e
  cases rt with
  | error e =>
    dsimp only
    exact ⟨rfl, hR1⟩
  | ok u =>
    dsimp only
    obtain ⟨h2e, hR2⟩ := syncInits_frel hF (modulePath module).dropLast [] s1 t1 hR1
    rcases his : syncInits src dest [] (modulePath module).dropLast s1 with ⟨r2, s2⟩
    rcases hit : syncInits src dest [] (modulePath module).dropLast t1 with ⟨r2t, t2⟩
    rw [his, hit] at h2e hR2
    simp only at h2e hR2
    subst h2e
    cases r2t with
    | error e =>
      dsimp only
      exact ⟨rfl, hR2⟩
    | ok u2 =>
      dsimp only
      by_cases hdir : srcPath src module ∈ s2.dirs
      · rw [if_pos (show srcPath src module ∈ t2.dirs by rw [hR2.1]; exact hdir),
            if_pos hdir]
        obtain ⟨h3e, hR3⟩ := sync_directory_frel hF hR2 opts (src_pref_srcPath src module)
          (dest_pref_destPath dest module)
        rcases hds : sync_directory (srcPath src module) (destPath dest module) opts s2
          with ⟨r3, s3⟩
        rcases hdt : sync_directory (srcPath src module) (destPath dest module) opts t2
          with ⟨r3t, t3⟩
        rw [hds, hdt] at h3e hR3
        simp only at h3e hR3
        subst h3e
        cases r3t with
        | error e =>
          dsimp only
          exact ⟨rfl, hR3⟩
        | ok u3 =>
          dsimp only
          exact ⟨rfl, hR3⟩
      · rw [if_neg (show srcPath src module ∉ t2.dirs by rw [hR2.1]; exact hdir),
            if_neg hdir]
        have hpyiff : isPyfile t2 (srcPath src module) ↔ isPyfile s2 (srcPath src module) := by
          unfold isPyfile
          exact frel_mem_files hR2 (hF.notm_src
            (pref_addPy (src_pref_srcPath src module) (srcPath_length src module)))
        by_cases hpy : isPyfile s2 (srcPath src module)
        · rw [if_pos (hpyiff.mpr hpy), if_pos hpy]
          have hdl : dest <+: (destPath dest module).dropLast :=
            pref_dropLast (dest_pref_destPath dest module) (destPath_length dest module)
          obtain ⟨h4e, hR4⟩ := sync_pyfile_frel hR2
            (hF.notm_src (pref_addPy (src_pref_srcPath src module) (srcPath_length src module)))
            (hF.notm_src (pref_trans
              (pref_dropLast (src_pref_srcPath src module) (srcPath_length src module))
              (pref_append _ _)))
            (hF.notm_dest hdl)
          rcases hfs : sync_pyfile (srcPath src module) (destPath dest module).dropLast s2
            with ⟨r4, s4⟩
          rcases hft : sync_pyfile (srcPath src module) (destPath dest module).dropLast t2
            with ⟨r4t, t4⟩
          rw [hfs, hft] at h4e hR4
          simp only at h4e hR4
          subst h4e
          cases r4t with
          | error e =>
            dsimp only
            exact ⟨rfl, hR4⟩
          | ok u4 =>
            dsimp only
            exact ⟨rfl, hR4⟩
        · rw [if_neg (fun hx => hpy (hpyiff.mp hx)), if_neg hpy]
          exact ⟨rfl, hR2⟩

theorem syncMembers_frel {F : Finset FPath} {src dest : FPath} (hF : Fok F src dest)
    (gopts : List String) (k : String) :
    ∀ (v : List String) (s t : FS), FRel F s t →
      (syncMembers src dest gopts k v t).1 = (syncMembers src dest gopts k v s).1 ∧
        FRel F (syncMembers src dest gopts k v s).2 (syncMembers src dest gopts k v t).2
  | [], _, _, hR => ⟨rfl, hR⟩
  | m :: rest, s, t, hR => by
    simp only [syncMembers]
    rcases he : extract_options m gopts with e | ⟨inc, opts⟩
    · exact ⟨rfl, hR⟩
    · dsimp only
      obtain ⟨h1e, hR1⟩ := sync_frel hF hR (k ++ "." ++ inc) opts
      rcases hcs : sync src dest (k ++ "." ++ inc) opts s with ⟨r, s1⟩
      rcases hct : sync src dest (k ++ "." ++ inc) opts t with ⟨rt, t1⟩
      rw [hcs, hct] at h1e hR1
      simp only at h1e hR1
      subst h1e
      cases rt with
      | error e =>
        dsimp only
        exact ⟨rfl, hR1⟩
      | ok w =>
        dsimp only
        obtain ⟨h2e, hR2⟩ := syncMembers_frel hF gopts k rest s1 t1 hR1
        rcases hms : syncMembers src dest gopts k rest s1 with ⟨r2, s2⟩
        rcases hmt : syncMembers src dest gopts k rest t1 with ⟨r2t, t2⟩
        rw [hms, hmt] at h2e hR2
        simp only at h2e hR2
        subst h2e
        cases r2t with
        | error e =>
          dsimp only
          exact ⟨rfl, hR2⟩
        | ok ws =>
          dsimp only
          exact ⟨rfl, hR2⟩

theorem syncEntries_frel {F : Finset FPath} {src dest : FPath} (hF : Fok F src dest)
    (gopts : List String) :
    ∀ (entries : List (String × List String)) (s t : FS), FRel F s t →
      (syncEntries src dest gopts entries t).1 = (syncEntries src dest gopts entries s).1 ∧
        FRel F (syncEntries src dest gopts entries s).2
          (syncEntries src dest gopts entries t).2
  | [], _, _, hR => ⟨rfl, hR⟩
  | (k, v) :: rest, s, t, hR => by
    simp only [syncEntries]
    obtain ⟨h1e, hR1⟩ := syncMembers_frel hF gopts k v s t hR
    rcases hcs : syncMembers src dest gopts k v s with ⟨r, s1⟩
    rcases hct : syncMembers src dest gopts k v t with ⟨rt, t1⟩
    rw [hcs, hct] at h1e hR1
    simp only at h1e hR1
    subst h1e
    cases rt with
    | error e =>
      dsimp only
      exact ⟨rfl, hR1⟩
    | ok w =>
      dsimp only
      obtain ⟨h2e, hR2⟩ := syncEntries_frel hF gopts rest s1 t1 hR1
      rcases hms : syncEntries src dest gopts rest s1 with ⟨r2, s2⟩
      rcases hmt : syncEntries src dest gopts rest t1 with ⟨r2t, t2⟩
      rw [hms, hmt] at h2e hR2
      simp only at h2e hR2
      subst h2e
      cases r2t with
      | error e =>
        dsimp only
        exact ⟨rfl, hR2⟩
      | ok ws =>
        dsimp only
        exact ⟨rfl, hR2⟩

theorem syncList_frel {F : Finset FPath} {src dest : FPath} (hF : Fok F src dest)
    (gopts : List String) :
    ∀ (incl : List IncSpec) (s t : FS), FRel F s t →
      (syncList src dest gopts incl t).1 = (syncList src dest gopts incl s).1 ∧
        FRel F (syncList src dest gopts incl s).2 (syncList src dest gopts incl t).2
  | [], _, _, hR => ⟨rfl, hR⟩
  | .str inc :: rest, s, t, hR => by
    simp only [syncList]
    rcases he : extract_options inc gopts with e | ⟨m, opts⟩
    · exact ⟨rfl, hR⟩
    · dsimp only
      obtain ⟨h1e, hR1⟩ := sync_frel hF hR m opts
      rcases hcs : sync src dest m opts s with ⟨r, s1⟩
      rcases hct : sync src dest m opts t with ⟨rt, t1⟩
      rw [hcs, hct] at h1e hR1
      simp only at h1e hR1
      subst h1e
      cases rt with
      | error e =>
        dsimp only
        exact ⟨rfl, hR1⟩
      | ok w =>
        dsimp only
        obtain ⟨h2e, hR2⟩ := syncList_frel hF gopts rest s1 t1 hR1
        rcases hms : syncList src dest gopts rest s1 with ⟨r2, s2⟩
        rcases hmt : syncList src dest gopts rest t1 with ⟨r2t, t2⟩
        rw [hms, hmt] at h2e hR2
        simp only at h2e hR2
        subst h2e
        cases r2t with
        | error e =>
          dsimp only
          exact ⟨rfl, hR2⟩
        | ok ws =>
          dsimp only
          exact ⟨rfl, hR2⟩
  | .map entries :: rest, s, t, hR => by
    simp only [syncList]
    obtain ⟨h1e, hR1⟩ := syncEntries_frel hF gopts entries s t hR
    rcases hcs : syncEntries src dest gopts entries s with ⟨r, s1⟩
    rcases hct : syncEntries src dest gopts entries t with ⟨rt, t1⟩
    rw [hcs, hct] at h1e hR1
    simp only at h1e hR1
    subst h1e
    cases rt with
    | error e =>
      dsimp only
      exact ⟨rfl, hR1⟩
    | ok w =>
      dsimp only
      obtain ⟨h2e, hR2⟩ := syncList_frel hF gopts rest s1 t1 hR1
      rcases hms : syncList src dest gopts rest s1 with ⟨r2, s2⟩
      rcases hmt : syncList src dest gopts rest t1 with ⟨r2t, t2⟩
      rw [hms, hmt] at h2e hR2
      simp only at h2e hR2
      subst h2e
      cases r2t with
      | error e =>
        dsimp only
        exact ⟨rfl, hR2⟩
      | ok ws =>
        dsimp only
        exact ⟨rfl, hR2⟩

theorem copytreeGo_dirs_nilfree (fs0 : FS) (opts : List String) :
    ∀ (fuel : Nat) (todo : List (FPath × FPath)) (fs : FS),
      [] ∉ fs.dirs → [] ∉ (copytreeGo fs0 opts fuel todo fs).dirs := by
  intro fuel
  induction fuel with
  | zero =>
    intro todo fs h
    cases todo <;> exact h
  | succ n ih =>
    intro todo fs h
    cases todo with
    | nil => exact h
    | cons pr rest =>
      obtain ⟨src', dest'⟩ := pr
      simp only [copytreeGo]
      refine ih _ _ ?_
      rw [foldl_copyStep_dirs, makedirs_dirs]
      intro hm
      rcases Finset.mem_union.mp hm with hm | hm
      · exact h hm
      · exact (mem_prefixesOf.mp hm).2 rfl

theorem sync_pyfile_dirs_nilfree (s' d' : FPath) (fs : FS) (h : [] ∉ fs.dirs) :
    [] ∉ ((sync_pyfile s' d' fs).2).dirs := by
  intro hm
  rcases sync_pyfile_dirs_bound s' d' fs [] hm with hm1 | ⟨_, hne⟩
  · exact h hm1
  · exact hne rfl

theorem sync_directory_dirs_nilfree (src' d' : FPath) (opts : List String) (fs : FS)
    (h : [] ∉ fs.dirs) : [] ∉ ((sync_directory src' d' opts fs).2).dirs := by
  rcases sync_directory_cases src' d' opts fs with ⟨e, heq⟩ | ⟨fs1, hfs1, hcase⟩
  · rw [heq]
    exact h
  · have h1 : [] ∉ fs1.dirs := by
      rcases hfs1 with rfl | rfl
      · exact h
      · intro hm
        exact h (Finset.mem_filter.mp hm).1
    rcases hcase with ⟨e, heq⟩ | ⟨_, _, heq⟩
    · rw [heq]
      exact h1
    · rw [heq]
      intro hm
      dsimp only at hm
      rw [ensure_init_dirs] at hm
      exact copytreeGo_dirs_nilfree fs1 opts _ _ _ h1 hm

theorem syncInits_dirs_nilfree (src dest : FPath) :
    ∀ (steps : List String) (done : FPath) (fs : FS), [] ∉ fs.dirs →
      [] ∉ ((syncInits src dest done steps fs).2).dirs
  | [], _, _, h => h
  | st :: rest, done, fs, h => by
    simp only [syncInits]
    rcases hs : sync_pyfile (src ++ ["charmhelpers"] ++ (done ++ [st]) ++ ["__init__"])
        (dest ++ (done ++ [st])) fs with ⟨r, fs1⟩
    have h1 : [] ∉ fs1.dirs := by
      have hh := sync_pyfile_dirs_nilfree
        (src ++ ["charmhelpers"] ++ (done ++ [st]) ++ ["__init__"])
        (dest ++ (done ++ [st])) fs h
      rw [hs] at hh
      exact hh
    cases r with
    | error e => exact h1
    | ok u => exact syncInits_dirs_nilfree src dest rest (done ++ [st]) fs1 h1

theorem sync_dirs_nilfree (src dest : FPath) (module : String) (opts : List String)
    (fs : FS) (h : [] ∉ fs.dirs) : [] ∉ ((sync src dest module opts fs).2).dirs := by
  simp only [sync]
  rcases h1 : sync_pyfile (srcPath src "__init__") dest fs with ⟨r1, fs1⟩
  have hn1 : [] ∉ fs1.dirs := by
    have hh := sync_pyfile_dirs_nilfree (srcPath src "__init__") dest fs h
    rw [h1] at hh
    exact hh
  cases r1 with
  | error e => exact hn1
  | ok u =>
    dsimp only
    rcases h2 : syncInits src dest [] (modulePath module).dropLast fs1 with ⟨r2, fs2⟩
    have hn2 : [] ∉ fs2.dirs := by
      have hh := syncInits_dirs_nilfree src dest (modulePath module).dropLast [] fs1 hn1
      rw [h2] at hh
      exact hh
    cases r2 with
    | error e => exact hn2
    | ok u2 =>
      dsimp only
      by_cases hdir : srcPath src module ∈ fs2.dirs
      · rw [if_pos hdir]
        rcases h3 : sync_directory (srcPath src module) (destPath dest module) opts fs2
          with ⟨r3, fs3⟩
        have hn3 : [] ∉ fs3.dirs := by
          have hh := sync_directory_dirs_nilfree (srcPath src module) (destPath dest module)
            opts fs2 hn2
          rw [h3] at hh
          exact hh
        cases r3 with
        | error e => exact hn3
        | ok u3 => exact hn3
      · rw [if_neg hdir]
        by_cases hpy : isPyfile fs2 (srcPath src module)
        · rw [if_pos hpy]
          rcases h4 : sync_pyfile (srcPath src module) (destPath dest module).dropLast fs2
            with ⟨r4, fs4⟩
          have hn4 : [] ∉ fs4.dirs := by
            have hh := sync_pyfile_dirs_nilfree (srcPath src module)
              (destPath dest module).dropLast fs2 hn2
            rw [h4] at hh
            exact hh
          cases r4 with
          | error e => exact hn4
          | ok u4 => exact hn4
        · rw [if_neg hpy]
          exact hn2

theorem syncMembers_dirs_nilfree (src dest : FPath) (gopts : List String) (k : String) :
    ∀ (v : List String) (fs : FS), [] ∉ fs.dirs →
      [] ∉ ((syncMembers src dest gopts k v fs).2).dirs
  | [], _, h => h
  | m :: rest, fs, h => by
    simp only [syncMembers]
    rcases he : extract_options m gopts with e | ⟨inc, opts⟩
    · exact h
    · dsimp only
      rcases hs : sync src dest (k ++ "." ++ inc) opts fs with ⟨r, fs1⟩
      have h1 : [] ∉ fs1.dirs := by
        have hh := sync_dirs_nilfree src dest (k ++ "." ++ inc) opts fs h
        rw [hs] at hh
        exact hh
      cases r with
      | error e => exact h1
      | ok w =>
        dsimp only
        rcases hm : syncMembers src dest gopts k rest fs1 with ⟨r2, fs2⟩
        have h2 : [] ∉ fs2.dirs := by
          have hh := syncMembers_dirs_nilfree src dest gopts k rest fs1 h1
          rw [hm] at hh
          exact hh
        cases r2 with
        | error e => exact h2
        | ok ws => exact h2

theorem syncEntries_dirs_nilfree (src dest : FPath) (gopts : List String) :
    ∀ (entries : List (String × List String)) (fs : FS), [] ∉ fs.dirs →
      [] ∉ ((syncEntries src dest gopts entries fs).2).dirs
  | [], _, h => h
  | (k, v) :: rest, fs, h => by
    simp only [syncEntries]
    rcases hm : syncMembers src dest gopts k v fs with ⟨r, fs1⟩
    have h1 : [] ∉ fs1.dirs := by
      have hh := syncMembers_dirs_nilfree src dest gopts k v fs h
      rw [hm] at hh
      exact hh
    cases r with
    | error e => exact h1
    | ok w =>
      dsimp only
      rcases hr : syncEntries src dest gopts rest fs1 with ⟨r2, fs2⟩
      have h2 : [] ∉ fs2.dirs := by
        have hh := syncEntries_dirs_nilfree src dest gopts rest fs1 h1
        rw [hr] at hh
        exact hh
      cases r2 with
      | error e => exact h2
      | ok ws => exact h2

theorem syncList_dirs_nilfree (src dest : FPath) (gopts : List String) :
    ∀ (incl : List IncSpec) (fs : FS), [] ∉ fs.dirs →
      [] ∉ ((syncList src dest gopts incl fs).2).dirs
  | [], _, h => h
  | .str inc :: rest, fs, h => by
    simp only [syncList]
    rcases he : extract_options inc gopts with e | ⟨m, opts⟩
    · exact h
    · dsimp only
      rcases hs : sync src dest m opts fs with ⟨r, fs1⟩
      have h1 : [] ∉ fs1.dirs := by
        have hh := sync_dirs_nilfree src dest m opts fs h
        rw [hs] at hh
        exact hh
      cases r with
      | error e => exact h1
      | ok w =>
        dsimp only
        rcases hr : syncList src dest gopts rest fs1 with ⟨r2, fs2⟩
        have h2 : [] ∉ fs2.dirs := by
          have hh := syncList_dirs_nilfree src dest gopts rest fs1 h1
          rw [hr] at hh
          exact hh
        cases r2 with
        | error e => exact h2
        | ok ws => exact h2
  | .map entries :: rest, fs, h => by
    simp only [syncList]
    rcases hm : syncEntries src dest gopts entries fs with ⟨r, fs1⟩
    have h1 : [] ∉ fs1.dirs := by
      have hh := syncEntries_dirs_nilfree src dest gopts entries fs h
      rw [hm] at hh
      exact hh
    cases r with
    | error e => exact h1
    | ok w =>
      dsimp only
      rcases hr : syncList src dest gopts rest fs1 with ⟨r2, fs2⟩
      have h2 : [] ∉ fs2.dirs := by
        have hh := syncList_dirs_nilfree src dest gopts rest fs1 h1
        rw [hr] at hh
        exact hh
      cases r2 with
      | error e => exact h2
      | ok ws => exact h2

theorem sync_helpers_of_dirs_mem (incl : List IncSpec) (src dest : FPath)
    (options : Option String) {fs : FS} (hdm : dest ∈ fs.dirs) :
    sync_helpers incl src dest options fs =
      syncList src dest (parse_sync_options options) incl (prepFS dest fs) := by
  have hex : fs.exists_ dest := Or.inl hdm
  simp only [sync_helpers]
  rw [if_pos hex, rmtree_of_mem hdm]
  dsimp only
  rw [if_neg (by simp [pref_refl])]
  rfl

theorem sync_helpers_wf_cases (incl : List IncSpec) (src dest : FPath)
    (options : Option String) {fs : FS} (hwf : fs.wf) (hne : dest ≠ []) :
    (∃ e, sync_helpers incl src dest options fs = (.error e, fs)) ∨
    sync_helpers incl src dest options fs =
      syncList src dest (parse_sync_options options) incl (prepFS dest fs) := by
  by_cases hdm : dest ∈ fs.dirs
  · exact Or.inr (sync_helpers_of_dirs_mem incl src dest options hdm)
  · by_cases he : fs.exists_ dest
    · left
      simp only [sync_helpers]
      rw [if_pos he, rmtree_of_not_mem hdm]
      exact ⟨_, rfl⟩
    · right
      simp only [sync_helpers]
      rw [if_neg he]
      dsimp only
      rw [if_neg hdm]
      have hdirs : fs.dirs.filter (fun q => ¬ dest <+: q) = fs.dirs := by
        refine Finset.filter_true_of_mem ?_
        intro q hq hdq
        rcases eq_or_ne q dest with rfl | hqne
        · exact hdm hq
        · have hlt : dest.length < q.length := by
            by_cases hlen : dest.length < q.length
            · exact hlen
            · exact absurd (eq_of_pref_of_length hdq (Nat.le_of_not_lt hlen)).symm hqne
          have hm := hwf.1 q hq dest.length hlt (List.length_pos.mpr hne)
          rw [pref_take hdq] at hm
          exact hdm hm
      have hfiles : fs.files.filter (fun q => ¬ dest <+: q) = fs.files := by
        refine Finset.filter_true_of_mem ?_
        intro q hq hdq
        rcases eq_or_ne q dest with rfl | hqne
        · exact he (Or.inr hq)
        · have hlt : dest.length < q.length := by
            by_cases hlen : dest.length < q.length
            · exact hlen
            · exact absurd (eq_of_pref_of_length hdq (Nat.le_of_not_lt hlen)).symm hqne
          have hm := hwf.2 q hq dest.length hlt (List.length_pos.mpr hne)
          rw [pref_take hdq] at hm
          exact hdm hm
      congr 1
      unfold prepFS makedirs
      rw [hdirs, hfiles]

/-! ### Claim C7 (batch sync idempotence) -/

/-- Claim C7: running the batch sync twice with identical inputs is the same
as running it once - both the outcome and the final file tree coincide,
because the destination subtree is wiped and fully rebuilt each time rather
than merged.  Hypotheses: the starting tree is well-formed, the destination
path is nonempty, and the source checkout does not straddle the destination
subtree (neither contains the other), which every real invocation of the
tool satisfies (the checkout lives in a fresh scratch directory). -/
theorem c7_batch_idempotence (incl : List IncSpec) (src dest : FPath)
    (options : Option String) (fs : FS) (hwf : fs.wf) (hne : dest ≠ [])
    (h1 : ¬ dest.take 2 <+: src) (h2 : ¬ src <+: dest.take 2) :
    sync_helpers incl src dest options ((sync_helpers incl src dest options fs).2) =
      sync_helpers incl src dest options fs := by
  rcases sync_helpers_wf_cases incl src dest options hwf hne with ⟨e, heq⟩ | heq
  · rw [heq]
    dsimp only
    exact heq
  · rcases hrun : syncList src dest (parse_sync_options options) incl (prepFS dest fs)
      with ⟨r1, t1⟩
    obtain ⟨hlbp, hlbd, hlbf⟩ :=
      syncList_listBounds src dest (parse_sync_options options) incl (prepFS dest fs)
    rw [hrun] at hlbp hlbd hlbf
    simp only at hlbp hlbd hlbf
    have hdp1 : dest ∈ (prepFS dest fs).dirs :=
      Finset.mem_union_right _ (self_mem_prefixesOf hne)
    have hdt1 : dest ∈ t1.dirs := (hlbp dest (fun _ => rfl)).1 hdp1
    have hrun2 : sync_helpers incl src dest options t1 =
        syncList src dest (parse_sync_options options) incl (prepFS dest t1) :=
      sync_helpers_of_dirs_mem incl src dest options hdt1
    have hdirs_eq : (prepFS dest t1).dirs = (prepFS dest fs).dirs := by
      apply Finset.Subset.antisymm
      · intro q hq
        rcases Finset.mem_union.mp hq with hq | hq
        · obtain ⟨hq1, hq2⟩ := Finset.mem_filter.mp hq
          rcases hlbd q hq1 with hc | hc | hc
          · exact hc
          · exact absurd hc hq2
          · rcases eq_or_ne q [] with rfl | hq0
            · by_cases h0 : ([] : FPath) ∈ (prepFS dest fs).dirs
              · exact h0
              · have hnf := syncList_dirs_nilfree src dest (parse_sync_options options) incl
                  (prepFS dest fs) h0
                rw [hrun] at hnf
                exact absurd hq1 hnf
            · exact Finset.mem_union_right _ (mem_prefixesOf.mpr ⟨hc, hq0⟩)
        · exact Finset.mem_union_right _ hq
      · intro q hq
        rcases Finset.mem_union.mp hq with hq | hq
        · obtain ⟨hq1, hq2⟩ := Finset.mem_filter.mp hq
          have hqt : q ∈ t1.dirs :=
            (hlbp q (fun hdq => absurd hdq hq2)).1
              (Finset.mem_union_left _ (Finset.mem_filter.mpr ⟨hq1, hq2⟩))
          exact Finset.mem_union_left _ (Finset.mem_filter.mpr ⟨hqt, hq2⟩)
        · exact Finset.mem_union_right _ hq
    have hfsub : (prepFS dest fs).files ⊆ (prepFS dest t1).files := by
      intro q hq
      obtain ⟨hq1, hq2⟩ := Finset.mem_filter.mp hq
      have hqt : q ∈ t1.files :=
        (hlbp q (fun hdq => absurd hdq hq2)).2 (Finset.mem_filter.mpr ⟨hq1, hq2⟩)
      exact Finset.mem_filter.mpr ⟨hqt, hq2⟩
    have hrel : FRel ((prepFS dest t1).files \ (prepFS dest fs).files)
        (prepFS dest fs) (prepFS dest t1) :=
      ⟨hdirs_eq, (Finset.union_sdiff_of_subset hfsub).symm⟩
    have hFok : Fok ((prepFS dest t1).files \ (prepFS dest fs).files) src dest := by
      constructor
      · intro p hp hsp
        obtain ⟨hp1, hp2⟩ := Finset.mem_sdiff.mp hp
        obtain ⟨hp3, _⟩ := Finset.mem_filter.mp hp1
        rcases hlbf p hp3 with hc | hc
        · exact hp2 hc
        · rcases pref_total hsp hc with hd | hd
          · exact h2 hd
          · exact h1 hd
      · intro p hp hdp
        obtain ⟨hp1, _⟩ := Finset.mem_sdiff.mp hp
        obtain ⟨_, hp4⟩ := Finset.mem_filter.mp hp1
        exact hp4 hdp
    obtain ⟨hre, hR2⟩ := syncList_frel hFok (parse_sync_options options) incl
      (prepFS dest fs) (prepFS dest t1) hrel
    rcases hrun2x : syncList src dest (parse_sync_options options) incl (prepFS dest t1)
      with ⟨r2, t2⟩
    rw [hrun, hrun2x] at hre hR2
    simp only at hre hR2
    have ht2 : t2 = t1 := by
      refine FS.eq_of_parts hR2.1 ?_
      rw [hR2.2]
      refine Finset.union_eq_left.mpr ?_
      intro p hp
      obtain ⟨hp1, _⟩ := Finset.mem_sdiff.mp hp
      exact (Finset.mem_filter.mp hp1).1
    rw [heq, hrun]
    dsimp only
    rw [hrun2, hrun2x, hre, ht2]

lemma c7wit_hwf : exSrcFS.wf := by decide

lemma c7wit_hne : (["hooks", "charmhelpers"] : FPath) ≠ [] := by decide

lemma c7wit_h1 :
    ¬ (["hooks", "charmhelpers"] : FPath).take 2 <+: ["tmp", "charm-helpers"] := by decide

lemma c7wit_h2 :
    ¬ (["tmp", "charm-helpers"] : FPath) <+: (["hooks", "charmhelpers"] : FPath).take 2 := by
  decide

section

attribute [local irreducible] exSrcFS

set_option maxHeartbeats 800000 in
/-- Witness for C7, applying the idempotence theorem at a concrete run:
re-running the batch sync of module core from the concrete checkout into
hooks/charmhelpers reproduces the first run's outcome and final tree. -/
theorem c7_witness :
    (exSrcFS.wf ∧ (["hooks", "charmhelpers"] : FPath) ≠ [] ∧
      ¬ (["hooks", "charmhelpers"] : FPath).take 2 <+: ["tmp", "charm-helpers"] ∧
      ¬ (["tmp", "charm-helpers"] : FPath) <+: (["hooks", "charmhelpers"] : FPath).take 2) ∧
    sync_helpers [IncSpec.str "core"] ["tmp", "charm-helpers"] ["hooks", "charmhelpers"] none
        ((sync_helpers [IncSpec.str "core"] ["tmp", "charm-helpers"] ["hooks", "charmhelpers"]
          none exSrcFS).2) =
      sync_helpers [IncSpec.str "core"] ["tmp", "charm-helpers"] ["hooks", "charmhelpers"]
        none exSrcFS :=
  ⟨⟨c7wit_hwf, c7wit_hne, c7wit_h1, c7wit_h2⟩,
    c7_batch_idempotence [IncSpec.str "core"] ["tmp", "charm-helpers"]
      ["hooks", "charmhelpers"] none exSrcFS c7wit_hwf c7wit_hne c7wit_h1 c7wit_h2⟩

end

end CH

